import Mathlib

/-!
Verification development for the knut `CppDocument` structural-editing core
(`src/core/cppdocument.cpp`).

The document buffer is modelled as a `List Char`; positions are offsets into
it.  `QTextDocument::characterCount()` is `length + 1` (Qt counts the final
block separator), and `characterAt` returns a non-delimiter filler character
out of range, matching Qt's behaviour of returning the paragraph separator or
a null `QChar` there.  Machine `int` positions and counters are modelled as
`Int`.
-/

namespace Knut

/-- Direction of travel, `QTextCursor::NextCharacter` or `PreviousCharacter`. -/
inductive Dir where
  | next
  | prev
deriving DecidableEq, Repr

/-- Increment applied to the position on each step (`inc` in the source). -/
def Dir.inc : Dir → Int
  | .next => 1
  | .prev => -1

/-- `QTextDocument::characterAt`: the character at an offset, or a filler
(never a delimiter) out of range. -/
def characterAt (doc : List Char) (i : Int) : Char :=
  if 0 ≤ i ∧ i < (doc.length : Int) then doc.getD i.toNat ' ' else ' '

/-- Opening delimiters `( { [`. -/
def openDelims : List Char := ['(', '{', '[']

/-- Closing delimiters `) } ]`. -/
def closeDelims : List Char := [')', '}', ']']

/-- Delimiters that increment the counter for a given direction
(`incCounterChar` in the source). -/
def incChars : Dir → List Char
  | .next => openDelims
  | .prev => closeDelims

/-- Delimiters that decrement the counter for a given direction
(`decCounterChar` in the source). -/
def decChars : Dir → List Char
  | .next => closeDelims
  | .prev => openDelims

/-- `lastPos` in `CppDocument::moveBlock`: `characterCount() - 1` when moving
forward (with `characterCount = length + 1`), `0` when moving backward. -/
def lastPosOf (doc : List Char) : Dir → Int
  | .next => (doc.length : Int)
  | .prev => 0

/-- `hitLastChar` in `CppDocument::moveBlock`. -/
def hitLast (dir : Dir) (lastPos pos : Int) : Bool :=
  match dir with
  | .next => pos ≥ lastPos
  | .prev => pos ≤ lastPos

/-- The scanning loop of `CppDocument::moveBlock` (the `while (!hitLastChar(pos))`
loop): returns the stop position at which the counter first goes negative,
or `none` when the scan hits the buffer extremity. -/
def scanBlock (doc : List Char) (dir : Dir) (lastPos pos counter : Int) : Option Int :=
  if hitLast dir lastPos pos then none
  else
    let c := characterAt doc pos
    if (incChars dir).contains c then
      scanBlock doc dir lastPos (pos + dir.inc) (counter + 1)
    else if (decChars dir).contains c then
      if counter - 1 < 0 then some pos
      else scanBlock doc dir lastPos (pos + dir.inc) (counter - 1)
    else
      scanBlock doc dir lastPos (pos + dir.inc) counter
termination_by (match dir with | .next => lastPos - pos | .prev => pos - lastPos).toNat
decreasing_by
  all_goals {
    cases dir <;> simp_all [hitLast, Dir.inc] <;> omega
  }

/-- `CppDocument::moveBlock(startPos, direction)`. -/
def moveBlock (doc : List Char) (startPos : Int) (dir : Dir) : Int :=
  let inc := dir.inc
  let lastPos := lastPosOf doc dir
  if startPos = lastPos then startPos
  else
    let pos := startPos + inc
    let currentChar := characterAt doc pos
    -- "If the character next is a special one, go inside the block"
    let pos := if (incChars dir).contains currentChar then pos + inc else pos
    let pos := pos + inc
    match scanBlock doc dir lastPos pos 0 with
    | some p => p + max inc 0
    | none => startPos

/-- The position where the scanning loop starts, as computed by `moveBlock`
before entering the loop. -/
def scanStart (doc : List Char) (startPos : Int) (dir : Dir) : Int :=
  let pos := startPos + dir.inc
  let pos := if (incChars dir).contains (characterAt doc pos) then pos + dir.inc else pos
  pos + dir.inc

/-- `+1` on an opener (relative to the direction), `-1` on a closer, `0` else. -/
def delimDelta (dir : Dir) (c : Char) : Int :=
  if (incChars dir).contains c then 1
  else if (decChars dir).contains c then -1
  else 0

/-- Net counter value accumulated after scanning `n` characters starting at
offset `s` in direction `dir` (a declarative rendering of the loop counter). -/
def scanBalance (doc : List Char) (dir : Dir) (s : Int) (n : Nat) : Int :=
  ((List.range n).map fun i : Nat => delimDelta dir (characterAt doc (s + dir.inc * (i : Int)))).sum

/-- The characters visited by the scanning loop, in visit order. -/
def scanChars (doc : List Char) (dir : Dir) (lastPos pos : Int) : List Char :=
  if hitLast dir lastPos pos then []
  else characterAt doc pos :: scanChars doc dir lastPos (pos + dir.inc)
termination_by (match dir with | .next => lastPos - pos | .prev => pos - lastPos).toNat
decreasing_by
  cases dir <;> simp_all [hitLast, Dir.inc] <;> omega

/-- List-level rendering of the scanning loop: the index of the character at
which the counter first goes negative, if any. -/
def scanList (dir : Dir) : List Char → Int → Option Nat
  | [], _ => none
  | c :: t, counter =>
    if (incChars dir).contains c then (scanList dir t (counter + 1)).map Nat.succ
    else if (decChars dir).contains c then
      if counter - 1 < 0 then some 0
      else (scanList dir t (counter - 1)).map Nat.succ
    else (scanList dir t counter).map Nat.succ

/-- Net counter change over a whole character list. -/
def listDelta (dir : Dir) (l : List Char) : Int :=
  (l.map (delimDelta dir)).sum

theorem listDelta_nil (dir : Dir) : listDelta dir [] = 0 := rfl

theorem listDelta_cons (dir : Dir) (c : Char) (l : List Char) :
    listDelta dir (c :: l) = delimDelta dir c + listDelta dir l := by
  simp [listDelta]

theorem listDelta_append (dir : Dir) (a b : List Char) :
    listDelta dir (a ++ b) = listDelta dir a + listDelta dir b := by
  simp [listDelta]

theorem inc_not_dec (dir : Dir) (c : Char) (h : (incChars dir).contains c = true) :
    (decChars dir).contains c = false := by
  cases dir <;> revert h <;>
    simp only [incChars, decChars, openDelims, closeDelims, List.contains, List.elem_eq_mem,
      List.mem_cons, List.not_mem_nil, or_false, decide_eq_true_eq, decide_eq_false_iff_not] <;>
    rintro (rfl | rfl | rfl) <;> decide

theorem scanList_nil (dir : Dir) (counter : Int) : scanList dir [] counter = none := rfl

theorem scanList_cons (dir : Dir) (x : Char) (t : List Char) (counter : Int) :
    scanList dir (x :: t) counter =
      if (incChars dir).contains x then (scanList dir t (counter + 1)).map Nat.succ
      else if (decChars dir).contains x then
        if counter - 1 < 0 then some 0
        else (scanList dir t (counter - 1)).map Nat.succ
      else (scanList dir t counter).map Nat.succ := rfl

/-- Shifting the offset interpretation of a successor index. -/
theorem map_succ_shift (o : Option Nat) (p i : Int) :
    (o.map Nat.succ).map (fun k : Nat => p + i * (k : Int)) =
      o.map (fun k : Nat => (p + i) + i * (k : Int)) := by
  cases o with
  | none => rfl
  | some k =>
    show some (p + i * ((k.succ : Nat) : Int)) = some ((p + i) + i * (k : Int))
    congr 1
    push_cast [Nat.succ_eq_add_one]
    ring

theorem scanBlock_eq_scanList (doc : List Char) (dir : Dir) (lastPos : Int) :
    ∀ pos counter,
      scanBlock doc dir lastPos pos counter =
        (scanList dir (scanChars doc dir lastPos pos) counter).map
          (fun k : Nat => pos + dir.inc * (k : Int)) := by
  intro pos counter
  induction pos, counter using scanBlock.induct doc dir lastPos with
  | case1 pos counter hhit =>
    rw [scanBlock, scanChars]
    simp only [hhit, if_true, scanList_nil, Option.map_none']
  | case2 pos counter hhit c hinc ih =>
    rw [scanBlock, scanChars]
    simp only [hhit, if_false, hinc, if_true, scanList_cons, Bool.false_eq_true]
    rw [map_succ_shift, ih]
  | case3 pos counter hhit c hinc hdec hneg =>
    rw [scanBlock, scanChars]
    simp only [hhit, hinc, hdec, hneg, if_true, if_false, Bool.false_eq_true, scanList_cons]
    simp
  | case4 pos counter hhit c hinc hdec hneg ih =>
    rw [scanBlock, scanChars]
    simp only [hhit, hinc, hdec, hneg, if_true, if_false, Bool.false_eq_true, scanList_cons]
    rw [map_succ_shift, ih]
  | case5 pos counter hhit c hinc hdec ih =>
    rw [scanBlock, scanChars]
    simp only [hhit, hinc, hdec, if_false, Bool.false_eq_true, scanList_cons]
    rw [map_succ_shift, ih]

theorem delimDelta_of_inc (dir : Dir) (c : Char) (h : (incChars dir).contains c = true) :
    delimDelta dir c = 1 := by
  unfold delimDelta
  rw [h]
  simp

theorem delimDelta_of_dec (dir : Dir) (c : Char) (h1 : (incChars dir).contains c = false)
    (h2 : (decChars dir).contains c = true) : delimDelta dir c = -1 := by
  unfold delimDelta
  rw [h1, h2]
  simp

theorem delimDelta_of_other (dir : Dir) (c : Char) (h1 : (incChars dir).contains c = false)
    (h2 : (decChars dir).contains c = false) : delimDelta dir c = 0 := by
  unfold delimDelta
  rw [h1, h2]
  simp

/-- If the scanning loop stops at index `k`, then `k` is in range, the counter
(started at `c ≥ 0`) first goes negative exactly after consuming `k + 1`
characters. -/
theorem scanList_some_spec (dir : Dir) :
    ∀ (l : List Char) (c : Int) (k : Nat), 0 ≤ c → scanList dir l c = some k →
      k < l.length ∧ c + listDelta dir (l.take (k + 1)) < 0 ∧
        ∀ m < k, 0 ≤ c + listDelta dir (l.take (m + 1))
  | [], c, k, _, h => by simp [scanList_nil] at h
  | x :: t, c, k, hc, h => by
    rw [scanList_cons] at h
    by_cases hinc : (incChars dir).contains x = true
    · simp only [hinc, if_true] at h
      obtain ⟨k', hk', rfl⟩ := Option.map_eq_some'.mp h
      obtain ⟨h1, h2, h3⟩ := scanList_some_spec dir t (c + 1) k' (by omega) hk'
      refine ⟨by simpa using h1, ?_, ?_⟩
      · rw [List.take_succ_cons, listDelta_cons, delimDelta_of_inc dir x hinc]
        omega
      · intro m hm
        cases m with
        | zero =>
          rw [List.take_succ_cons, List.take_zero, listDelta_cons, listDelta_nil,
            delimDelta_of_inc dir x hinc]
          omega
        | succ m' =>
          rw [List.take_succ_cons, listDelta_cons, delimDelta_of_inc dir x hinc]
          have := h3 m' (by omega)
          omega
    · rw [Bool.not_eq_true] at hinc
      simp only [hinc, Bool.false_eq_true, if_false] at h
      by_cases hdec : (decChars dir).contains x = true
      · simp only [hdec, if_true] at h
        by_cases hneg : c - 1 < 0
        · simp only [hneg, if_true, Option.some_inj] at h
          subst h
          refine ⟨by simp, ?_, by omega⟩
          rw [List.take_succ_cons, List.take_zero, listDelta_cons, listDelta_nil,
            delimDelta_of_dec dir x hinc hdec]
          omega
        · simp only [hneg, if_false] at h
          obtain ⟨k', hk', rfl⟩ := Option.map_eq_some'.mp h
          obtain ⟨h1, h2, h3⟩ := scanList_some_spec dir t (c - 1) k' (by omega) hk'
          refine ⟨by simpa using h1, ?_, ?_⟩
          · rw [List.take_succ_cons, listDelta_cons, delimDelta_of_dec dir x hinc hdec]
            omega
          · intro m hm
            cases m with
            | zero =>
              rw [List.take_succ_cons, List.take_zero, listDelta_cons, listDelta_nil,
                delimDelta_of_dec dir x hinc hdec]
              omega
            | succ m' =>
              rw [List.take_succ_cons, listDelta_cons, delimDelta_of_dec dir x hinc hdec]
              have := h3 m' (by omega)
              omega
      · rw [Bool.not_eq_true] at hdec
        simp only [hdec, Bool.false_eq_true, if_false] at h
        obtain ⟨k', hk', rfl⟩ := Option.map_eq_some'.mp h
        obtain ⟨h1, h2, h3⟩ := scanList_some_spec dir t c k' hc hk'
        refine ⟨by simpa using h1, ?_, ?_⟩
        · rw [List.take_succ_cons, listDelta_cons, delimDelta_of_other dir x hinc hdec]
          omega
        · intro m hm
          cases m with
          | zero =>
            rw [List.take_succ_cons, List.take_zero, listDelta_cons, listDelta_nil,
              delimDelta_of_other dir x hinc hdec]
            omega
          | succ m' =>
            rw [List.take_succ_cons, listDelta_cons, delimDelta_of_other dir x hinc hdec]
            have := h3 m' (by omega)
            omega

/-- If the scanning loop runs off the end of the character list, the counter
(started at `c ≥ 0`) never went negative. -/
theorem scanList_none_spec (dir : Dir) :
    ∀ (l : List Char) (c : Int), 0 ≤ c → scanList dir l c = none →
      ∀ n ≤ l.length, 0 ≤ c + listDelta dir (l.take n)
  | [], c, hc, _, n, hn => by
    have hn0 : n = 0 := Nat.le_zero.mp (by simpa using hn)
    subst hn0
    simpa [listDelta_nil] using hc
  | x :: t, c, hc, h, n, hn => by
    rw [scanList_cons] at h
    cases n with
    | zero => simpa [listDelta_nil]
    | succ n' =>
      rw [List.take_succ_cons, listDelta_cons]
      by_cases hinc : (incChars dir).contains x = true
      · simp only [hinc, if_true, Option.map_eq_none'] at h
        have := scanList_none_spec dir t (c + 1) (by omega) h n' (by simpa using hn)
        rw [delimDelta_of_inc dir x hinc]
        omega
      · rw [Bool.not_eq_true] at hinc
        simp only [hinc, Bool.false_eq_true, if_false] at h
        by_cases hdec : (decChars dir).contains x = true
        · simp only [hdec, if_true] at h
          by_cases hneg : c - 1 < 0
          · simp [hneg] at h
          · simp only [hneg, if_false, Option.map_eq_none'] at h
            have := scanList_none_spec dir t (c - 1) (by omega) h n' (by simpa using hn)
            rw [delimDelta_of_dec dir x hinc hdec]
            omega
        · rw [Bool.not_eq_true] at hdec
          simp only [hdec, Bool.false_eq_true, if_false, Option.map_eq_none'] at h
          have := scanList_none_spec dir t c hc h n' (by simpa using hn)
          rw [delimDelta_of_other dir x hinc hdec]
          omega

theorem scanChars_eq_nil (doc : List Char) (dir : Dir) (lastPos pos : Int)
    (h : hitLast dir lastPos pos = true) : scanChars doc dir lastPos pos = [] := by
  rw [scanChars]
  simp [h]

theorem scanChars_eq_cons (doc : List Char) (dir : Dir) (lastPos pos : Int)
    (h : hitLast dir lastPos pos = false) :
    scanChars doc dir lastPos pos =
      characterAt doc pos :: scanChars doc dir lastPos (pos + dir.inc) := by
  rw [scanChars]
  simp [h]

theorem scanChars_length_next (doc : List Char) (lastPos : Int) :
    ∀ pos, (scanChars doc .next lastPos pos).length = (lastPos - pos).toNat := by
  intro pos
  induction pos using scanChars.induct doc Dir.next lastPos with
  | case1 pos hhit =>
    rw [scanChars_eq_nil doc _ _ _ hhit]
    simp only [hitLast, ge_iff_le, decide_eq_true_eq] at hhit
    simp only [List.length_nil]
    omega
  | case2 pos hhit ih =>
    rw [scanChars_eq_cons doc _ _ _ (by simpa using hhit)]
    simp only [hitLast, ge_iff_le, decide_eq_true_eq, Bool.not_eq_true,
      decide_eq_false_iff_not, not_le] at hhit
    simp only [Dir.inc] at ih ⊢
    simp only [List.length_cons, ih]
    omega

theorem scanChars_length_prev (doc : List Char) (lastPos : Int) :
    ∀ pos, (scanChars doc .prev lastPos pos).length = (pos - lastPos).toNat := by
  intro pos
  induction pos using scanChars.induct doc Dir.prev lastPos with
  | case1 pos hhit =>
    rw [scanChars_eq_nil doc _ _ _ hhit]
    simp only [hitLast, decide_eq_true_eq] at hhit
    simp only [List.length_nil]
    omega
  | case2 pos hhit ih =>
    rw [scanChars_eq_cons doc _ _ _ (by simpa using hhit)]
    simp only [hitLast, decide_eq_true_eq, Bool.not_eq_true, decide_eq_false_iff_not,
      not_le] at hhit
    simp only [Dir.inc] at ih ⊢
    simp only [List.length_cons, ih]
    omega

theorem hitLast_iff_length_le (doc : List Char) (dir : Dir) (pos : Int) (n : Nat) :
    hitLast dir (lastPosOf doc dir) (pos + dir.inc * n) = true ↔
      (scanChars doc dir (lastPosOf doc dir) pos).length ≤ n := by
  cases dir
  · rw [scanChars_length_next]
    simp only [hitLast, lastPosOf, Dir.inc, ge_iff_le, decide_eq_true_eq]
    omega
  · rw [scanChars_length_prev]
    simp only [hitLast, lastPosOf, Dir.inc, decide_eq_true_eq]
    omega

theorem scanChars_getElem? (doc : List Char) (dir : Dir) (lastPos : Int) :
    ∀ pos (n : Nat), n < (scanChars doc dir lastPos pos).length →
      (scanChars doc dir lastPos pos)[n]? =
        some (characterAt doc (pos + dir.inc * n)) := by
  intro pos
  induction pos using scanChars.induct doc dir lastPos with
  | case1 pos hhit =>
    intro n h
    rw [scanChars_eq_nil doc _ _ _ hhit] at h
    simp at h
  | case2 pos hhit ih =>
    intro n h
    rw [scanChars_eq_cons doc _ _ _ (by simpa using hhit)] at h ⊢
    rcases n with _ | m
    · simp
    · rw [List.getElem?_cons_succ]
      rw [List.length_cons] at h
      rw [ih m (by omega)]
      congr 2
      push_cast
      ring

theorem listDelta_take_eq_scanBalance (doc : List Char) (dir : Dir) (pos : Int) :
    ∀ (n : Nat), n ≤ (scanChars doc dir (lastPosOf doc dir) pos).length →
      listDelta dir ((scanChars doc dir (lastPosOf doc dir) pos).take n) =
        scanBalance doc dir pos n := by
  intro n
  induction n with
  | zero => intro _; simp [listDelta, scanBalance]
  | succ n ih =>
    intro h
    have hlt : n < (scanChars doc dir (lastPosOf doc dir) pos).length := by omega
    rw [List.take_succ, scanChars_getElem? doc dir _ pos n hlt, listDelta_append, ih (by omega)]
    rw [scanBalance, scanBalance, List.range_succ, List.map_append, List.sum_append]
    simp [listDelta]

/-- Full characterization of `moveBlock`: either the start position is already
at the buffer extremity (returned unchanged); or the scan found the first
position at which the nesting counter goes negative (returned, adjusted by
one when moving forward); or the scan hit the extremity with the counter
never having gone negative (start position returned unchanged). -/
theorem moveBlock_characterization (doc : List Char) (startPos : Int) (dir : Dir) :
    (startPos = lastPosOf doc dir ∧ moveBlock doc startPos dir = startPos) ∨
    (∃ n : Nat,
        hitLast dir (lastPosOf doc dir) (scanStart doc startPos dir + dir.inc * n) = false ∧
        scanBalance doc dir (scanStart doc startPos dir) (n + 1) < 0 ∧
        (∀ m < n, 0 ≤ scanBalance doc dir (scanStart doc startPos dir) (m + 1)) ∧
        moveBlock doc startPos dir = scanStart doc startPos dir + dir.inc * n + max dir.inc 0) ∨
    ((∀ n : Nat,
        hitLast dir (lastPosOf doc dir) (scanStart doc startPos dir + dir.inc * n) = false →
          0 ≤ scanBalance doc dir (scanStart doc startPos dir) (n + 1)) ∧
      moveBlock doc startPos dir = startPos) := by
  by_cases hstart : startPos = lastPosOf doc dir
  · left
    refine ⟨hstart, ?_⟩
    rw [moveBlock]
    simp [hstart]
  · have hmb : moveBlock doc startPos dir =
        match scanBlock doc dir (lastPosOf doc dir) (scanStart doc startPos dir) 0 with
        | some p => p + max dir.inc 0
        | none => startPos := by
      rw [moveBlock, scanStart]
      simp only [hstart, if_false]
    rw [scanBlock_eq_scanList] at hmb
    set s := scanStart doc startPos dir with hs
    rcases hsl : scanList dir (scanChars doc dir (lastPosOf doc dir) s) 0 with _ | k
    · right; right
      rw [hsl] at hmb
      refine ⟨?_, by simpa using hmb⟩
      intro n hn
      have hlen : n < (scanChars doc dir (lastPosOf doc dir) s).length := by
        by_contra hc
        push_neg at hc
        have ht := (hitLast_iff_length_le doc dir s n).mpr hc
        rw [ht] at hn
        simp at hn
      have := scanList_none_spec dir _ 0 le_rfl hsl (n + 1) (by omega)
      rw [listDelta_take_eq_scanBalance doc dir s (n + 1) (by omega)] at this
      omega
    · right; left
      rw [hsl] at hmb
      obtain ⟨h1, h2, h3⟩ := scanList_some_spec dir _ 0 k le_rfl hsl
      refine ⟨k, ?_, ?_, ?_, by simpa using hmb⟩
      · cases hfb : hitLast dir (lastPosOf doc dir) (s + dir.inc * (k : Nat)) with
        | false => rfl
        | true => exact absurd ((hitLast_iff_length_le doc dir s k).mp hfb) (by omega)
      · have := listDelta_take_eq_scanBalance doc dir s (k + 1) (by omega)
        omega
      · intro m hm
        have hle : m + 1 ≤ (scanChars doc dir (lastPosOf doc dir) s).length := by omega
        have := listDelta_take_eq_scanBalance doc dir s (m + 1) hle
        have := h3 m hm
        omega

/-- C5: for every buffer text and every `startPos`, `moveBlock` scans character
by character in the direction of travel, incrementing a counter on delimiters
that open relative to that direction and decrementing on delimiters that close
it; the first decrement that drives the counter negative determines the
returned position (adjusted by one when moving forward, via `max inc 0`); and
if the scan reaches the buffer extremity without the counter going negative
(or the start is already at the extremity), `moveBlock` returns the original
`startPos` unchanged. -/
theorem c5_moveBlock_scan_first_negative (doc : List Char) (startPos : Int) (dir : Dir) :
    (startPos = lastPosOf doc dir ∧ moveBlock doc startPos dir = startPos) ∨
    (∃ n : Nat,
        hitLast dir (lastPosOf doc dir) (scanStart doc startPos dir + dir.inc * n) = false ∧
        scanBalance doc dir (scanStart doc startPos dir) (n + 1) < 0 ∧
        (∀ m < n, 0 ≤ scanBalance doc dir (scanStart doc startPos dir) (m + 1)) ∧
        moveBlock doc startPos dir = scanStart doc startPos dir + dir.inc * n + max dir.inc 0) ∨
    ((∀ n : Nat,
        hitLast dir (lastPosOf doc dir) (scanStart doc startPos dir + dir.inc * n) = false →
          0 ≤ scanBalance doc dir (scanStart doc startPos dir) (n + 1)) ∧
      moveBlock doc startPos dir = startPos) :=
  moveBlock_characterization doc startPos dir

/-!
### The `while (count != 0)` loops

`gotoBlockStart`, `gotoBlockEnd`, `selectBlockStart`, `selectBlockEnd` and
`selectBlockUp` all run the same loop

    while (count != 0) {
        cursor.setPosition(moveBlock(cursor.position(), direction));
        --count;
    }

with direction `PreviousCharacter` for the two `Start` functions and
`NextCharacter` for the others.  The loop state is the pair
`(count, cursor position)`; `count` is a C++ `int`, modelled as a
mathematical integer (signed overflow is undefined behaviour in C++).
-/

/-- One iteration of the shared `while (count != 0)` loop body. -/
def blockLoopStep (doc : List Char) (dir : Dir) : Int × Int → Int × Int :=
  fun cp => (cp.1 - 1, moveBlock doc cp.2 dir)

/-- Loop state after `n` iterations of the loop body of `gotoBlockStart`. -/
def gotoBlockStartLoop (doc : List Char) (count pos : Int) (n : Nat) : Int × Int :=
  (blockLoopStep doc .prev)^[n] (count, pos)

/-- Loop state after `n` iterations of the loop body of `gotoBlockEnd`. -/
def gotoBlockEndLoop (doc : List Char) (count pos : Int) (n : Nat) : Int × Int :=
  (blockLoopStep doc .next)^[n] (count, pos)

/-- Loop state after `n` iterations of the loop body of `selectBlockStart`. -/
def selectBlockStartLoop (doc : List Char) (count pos : Int) (n : Nat) : Int × Int :=
  (blockLoopStep doc .prev)^[n] (count, pos)

/-- Loop state after `n` iterations of the loop body of `selectBlockEnd`. -/
def selectBlockEndLoop (doc : List Char) (count pos : Int) (n : Nat) : Int × Int :=
  (blockLoopStep doc .next)^[n] (count, pos)

/-- Loop state after `n` iterations of the loop body of `selectBlockUp`. -/
def selectBlockUpLoop (doc : List Char) (count pos : Int) (n : Nat) : Int × Int :=
  (blockLoopStep doc .next)^[n] (count, pos)

theorem blockLoopStep_iterate_fst (doc : List Char) (dir : Dir) (count pos : Int) :
    ∀ n : Nat, ((blockLoopStep doc dir)^[n] (count, pos)).1 = count - n := by
  intro n
  induction n with
  | zero => simp
  | succ n ih =>
    rw [Function.iterate_succ_apply', blockLoopStep]
    push_cast
    rw [ih]
    push_cast
    ring

theorem blockLoopStep_iterate_snd (doc : List Char) (dir : Dir) (count pos : Int) :
    ∀ n : Nat, ((blockLoopStep doc dir)^[n] (count, pos)).2 =
      (fun p => moveBlock doc p dir)^[n] pos := by
  intro n
  induction n generalizing count pos with
  | zero => simp
  | succ n ih =>
    rw [Function.iterate_succ_apply, Function.iterate_succ_apply, blockLoopStep]
    exact ih (count - 1) (moveBlock doc pos dir)

/-- C8: the `while (count != 0)` loops of `gotoBlockStart`, `gotoBlockEnd`,
`selectBlockStart`, `selectBlockEnd` and `selectBlockUp` terminate only under
the precondition `count ≥ 0`, in which case the guard first becomes false
after exactly `count` iterations and the cursor position is `count` iterations
of `moveBlock`; for any negative `count` the guard `count != 0` never becomes
false, so the iteration never terminates. -/
theorem c8_block_loops_terminate_iff_nonneg (doc : List Char) (count pos : Int) :
    (0 ≤ count →
      (∀ m : Nat, m < count.toNat →
        (gotoBlockStartLoop doc count pos m).1 ≠ 0 ∧
        (gotoBlockEndLoop doc count pos m).1 ≠ 0 ∧
        (selectBlockStartLoop doc count pos m).1 ≠ 0 ∧
        (selectBlockEndLoop doc count pos m).1 ≠ 0 ∧
        (selectBlockUpLoop doc count pos m).1 ≠ 0) ∧
      (gotoBlockStartLoop doc count pos count.toNat).1 = 0 ∧
      (gotoBlockEndLoop doc count pos count.toNat).1 = 0 ∧
      (selectBlockStartLoop doc count pos count.toNat).1 = 0 ∧
      (selectBlockEndLoop doc count pos count.toNat).1 = 0 ∧
      (selectBlockUpLoop doc count pos count.toNat).1 = 0 ∧
      (gotoBlockStartLoop doc count pos count.toNat).2 =
        (fun p => moveBlock doc p .prev)^[count.toNat] pos ∧
      (gotoBlockEndLoop doc count pos count.toNat).2 =
        (fun p => moveBlock doc p .next)^[count.toNat] pos) ∧
    (count < 0 → ∀ n : Nat,
      (gotoBlockStartLoop doc count pos n).1 ≠ 0 ∧
      (gotoBlockEndLoop doc count pos n).1 ≠ 0 ∧
      (selectBlockStartLoop doc count pos n).1 ≠ 0 ∧
      (selectBlockEndLoop doc count pos n).1 ≠ 0 ∧
      (selectBlockUpLoop doc count pos n).1 ≠ 0) := by
  have hfst := blockLoopStep_iterate_fst doc
  constructor
  · intro hc
    refine ⟨?_, ?_, ?_, ?_, ?_, ?_, ?_, ?_⟩
    · intro m hm
      refine ⟨?_, ?_, ?_, ?_, ?_⟩ <;>
        simp only [gotoBlockStartLoop, gotoBlockEndLoop, selectBlockStartLoop,
          selectBlockEndLoop, selectBlockUpLoop, hfst] <;> omega
    all_goals
      simp only [gotoBlockStartLoop, gotoBlockEndLoop, selectBlockStartLoop,
        selectBlockEndLoop, selectBlockUpLoop, hfst, blockLoopStep_iterate_snd]
    all_goals omega
  · intro hc n
    refine ⟨?_, ?_, ?_, ?_, ?_⟩ <;>
      simp only [gotoBlockStartLoop, gotoBlockEndLoop, selectBlockStartLoop,
        selectBlockEndLoop, selectBlockUpLoop, hfst] <;> omega

/-!
### Method deletion (`CppDocument::deleteMethodLocal`)
-/

/-- A symbol, as produced by the external query engine (`Core::Symbol`):
name, whether it is a function, its signature description, and its text
range `[rstart, rend)`. -/
structure SymbolRec where
  name : String
  isFunction : Bool
  description : String
  rstart : Nat
  rend : Nat
deriving Repr, DecidableEq

/-- Modelled from the spec: `deleteSymbol` (declared on the document base
class, whose source is not among the given files) removes exactly the text of
the symbol's range — "removes both symbol ranges and leaves all text outside
those ranges untouched". -/
def deleteSymbol (buffer : List Char) (s : SymbolRec) : List Char :=
  buffer.take s.rstart ++ buffer.drop s.rend

/-- Negation of the `doesNotMatchMethod` predicate of
`CppDocument::deleteMethodLocal` (the symbols `kdalgorithms::erase_if`
keeps are exactly the matching ones). -/
def matchesMethod (methodName signature : String) (s : SymbolRec) : Bool :=
  if signature.isEmpty then s.isFunction && s.name == methodName
  else s.isFunction && s.name == methodName && s.description == signature

/-- Insertion step of the sort by descending `range().start`
(`std::ranges::sort(symbolList, byRange)` with `byRange` comparing with `>`). -/
def insertDesc (s : SymbolRec) : List SymbolRec → List SymbolRec
  | [] => [s]
  | t :: ts => if t.rstart ≤ s.rstart then s :: t :: ts else t :: insertDesc s ts

/-- Stable sort by descending `range().start`. -/
def sortByStartDesc : List SymbolRec → List SymbolRec
  | [] => []
  | s :: ss => insertDesc s (sortByStartDesc ss)

/-- `CppDocument::deleteMethodLocal(methodName, signature)`: keep the matching
symbols, sort them end-to-start and delete each one's range. -/
def deleteMethodLocal (buffer : List Char) (symbolList : List SymbolRec)
    (methodName signature : String) : List Char :=
  let matching := symbolList.filter (matchesMethod methodName signature)
  if matching.isEmpty then buffer
  else (sortByStartDesc matching).foldl deleteSymbol buffer

/-- Whether offset `i` lies in the range of one of the symbols. -/
def coveredBy (rs : List SymbolRec) (i : Nat) : Bool :=
  rs.any fun s => decide (s.rstart ≤ i) && decide (i < s.rend)

/-- Specification-side deletion: keep exactly the characters whose offsets lie
outside every given symbol range. -/
def eraseRanges (buffer : List Char) (rs : List SymbolRec) : List Char :=
  ((List.range buffer.length).filter fun i => !coveredBy rs i).map
    fun i : Nat => buffer.getD i ' '

theorem map_getD_range (B : List Char) :
    ((List.range B.length).map fun i : Nat => B.getD i ' ') = B := by
  induction B with
  | nil => rfl
  | cons b t ih =>
    rw [List.length_cons, List.range_succ_eq_map, List.map_cons, List.map_map]
    have hmap : ∀ i ∈ List.range t.length,
        ((fun i : Nat => (b :: t).getD i ' ') ∘ Nat.succ) i = t.getD i ' ' := by
      intro i _
      show (b :: t).getD (i + 1) ' ' = t.getD i ' '
      exact List.getD_cons_succ
    rw [List.map_congr_left hmap, ih]
    rfl

theorem coveredBy_nil (i : Nat) : coveredBy [] i = false := rfl

theorem coveredBy_cons (s : SymbolRec) (rest : List SymbolRec) (i : Nat) :
    coveredBy (s :: rest) i =
      ((decide (s.rstart ≤ i) && decide (i < s.rend)) || coveredBy rest i) := by
  simp [coveredBy]

theorem coveredBy_eq_false_of_le (rs : List SymbolRec) (j : Nat)
    (h : ∀ s ∈ rs, s.rend ≤ j) : coveredBy rs j = false := by
  rw [coveredBy, List.any_eq_false]
  intro s hs
  have := h s hs
  simp only [Bool.and_eq_true, decide_eq_true_eq, not_and]
  omega

theorem coveredBy_perm {rs rs' : List SymbolRec} (h : rs.Perm rs') (i : Nat) :
    coveredBy rs i = coveredBy rs' i := by
  rw [Bool.eq_iff_iff, coveredBy, coveredBy, List.any_eq_true, List.any_eq_true]
  constructor <;> rintro ⟨s, hs, hp⟩
  · exact ⟨s, h.mem_iff.mp hs, hp⟩
  · exact ⟨s, h.mem_iff.mpr hs, hp⟩

theorem eraseRanges_perm (buffer : List Char) {rs rs' : List SymbolRec}
    (h : rs.Perm rs') : eraseRanges buffer rs = eraseRanges buffer rs' := by
  unfold eraseRanges
  congr 1
  apply List.filter_congr
  intro i _
  rw [coveredBy_perm h i]

theorem eraseRanges_nil (buffer : List Char) : eraseRanges buffer [] = buffer := by
  unfold eraseRanges
  have : ∀ i ∈ List.range buffer.length, (!coveredBy [] i) = true := by
    intro i _
    rw [coveredBy_nil]
    rfl
  rw [List.filter_eq_self.mpr this, map_getD_range]

/-- Deleting only in the prefix leaves an appended suffix untouched. -/
theorem eraseRanges_append (A B : List Char) (rs : List SymbolRec)
    (h : ∀ s ∈ rs, s.rend ≤ A.length) :
    eraseRanges (A ++ B) rs = eraseRanges A rs ++ B := by
  unfold eraseRanges
  rw [List.length_append, List.range_add, List.filter_append, List.map_append]
  congr 1
  · apply List.map_congr_left
    intro i hi
    rw [List.mem_filter, List.mem_range] at hi
    exact List.getD_append _ _ _ _ hi.1
  · rw [List.filter_map]
    have hall : ∀ i ∈ List.range B.length,
        ((fun i : Nat => !coveredBy rs i) ∘ fun x : Nat => A.length + x) i = true := by
      intro i _
      show (!coveredBy rs (A.length + i)) = true
      rw [coveredBy_eq_false_of_le rs _ fun s hs => le_trans (h s hs) (by omega)]
      rfl
    rw [List.filter_eq_self.mpr hall, List.map_map]
    have hmap : ∀ i ∈ List.range B.length,
        ((fun i : Nat => (A ++ B).getD i ' ') ∘ fun x : Nat => A.length + x) i =
          B.getD i ' ' := by
      intro i _
      show (A ++ B).getD (A.length + i) ' ' = B.getD i ' '
      rw [List.getD_append_right _ _ _ _ (by omega)]
      congr 1
      omega
    rw [List.map_congr_left hmap, map_getD_range]

/-- Splitting off the right-most range: erasing `s :: rest` (with every range
of `rest` entirely before `s`) erases `rest` from the prefix before `s` and
drops `s`'s own range. -/
theorem eraseRanges_cons (buffer : List Char) (s : SymbolRec) (rest : List SymbolRec)
    (hv : s.rstart < s.rend) (hlen : s.rend ≤ buffer.length)
    (hrest : ∀ t ∈ rest, t.rend ≤ s.rstart) :
    eraseRanges buffer (s :: rest) =
      eraseRanges (buffer.take s.rstart) rest ++ buffer.drop s.rend := by
  unfold eraseRanges
  have hsplit : buffer.length = s.rend + (buffer.length - s.rend) := by omega
  rw [hsplit, List.range_add, List.filter_append, List.map_append]
  have hsplit2 : s.rend = s.rstart + (s.rend - s.rstart) := by omega
  congr 1
  · -- the part over `range s.rend`
    rw [hsplit2, List.range_add, List.filter_append, List.map_append]
    have hmid : List.filter (fun i : Nat => !coveredBy (s :: rest) i)
        ((List.range (s.rend - s.rstart)).map fun x : Nat => s.rstart + x) = [] := by
      rw [List.filter_eq_nil_iff]
      intro j hj
      rw [List.mem_map] at hj
      obtain ⟨x, hx, rfl⟩ := hj
      rw [List.mem_range] at hx
      rw [coveredBy_cons]
      simp only [Bool.not_eq_true, Bool.not_eq_true', Bool.or_eq_false_iff, Bool.and_eq_false_iff]
      intro hcontra
      rcases hcontra with ⟨h1 | h2, _⟩ <;> simp only [decide_eq_false_iff_not] at * <;> omega
    rw [hmid, List.map_nil, List.append_nil]
    have hlentake : (buffer.take s.rstart).length = s.rstart := by
      rw [List.length_take]
      omega
    rw [hlentake]
    have hfeq : ∀ i ∈ List.range s.rstart,
        (!coveredBy (s :: rest) i) = (!coveredBy rest i) := by
      intro i hi
      rw [List.mem_range] at hi
      rw [coveredBy_cons]
      have : decide (s.rstart ≤ i) = false := by
        simp only [decide_eq_false_iff_not]
        omega
      rw [this, Bool.false_and, Bool.false_or]
    rw [List.filter_congr hfeq]
    apply List.map_congr_left
    intro i hi
    rw [List.mem_filter, List.mem_range] at hi
    rw [List.getD_eq_getElem?_getD, List.getD_eq_getElem?_getD, List.getElem?_take,
      if_pos hi.1]
  · -- the part over offsets `≥ s.rend`
    rw [List.filter_map]
    have hall : ∀ i ∈ List.range (buffer.length - s.rend),
        ((fun i : Nat => !coveredBy (s :: rest) i) ∘ fun x : Nat => s.rend + x) i = true := by
      intro i _
      show (!coveredBy (s :: rest) (s.rend + i)) = true
      rw [coveredBy_cons]
      have h1 : decide (s.rend + i < s.rend) = false := by
        simp only [decide_eq_false_iff_not]
        omega
      rw [h1, Bool.and_false, Bool.false_or,
        coveredBy_eq_false_of_le rest _ fun t ht => by have := hrest t ht; omega]
      rfl
    rw [List.filter_eq_self.mpr hall, List.map_map]
    have hdroplen : (buffer.drop s.rend).length = buffer.length - s.rend := by
      rw [List.length_drop]
    have hmap : ∀ i ∈ List.range (buffer.length - s.rend),
        ((fun i : Nat => buffer.getD i ' ') ∘ fun x : Nat => s.rend + x) i =
          (buffer.drop s.rend).getD i ' ' := by
      intro i _
      show buffer.getD (s.rend + i) ' ' = (buffer.drop s.rend).getD i ' '
      rw [List.getD_eq_getElem?_getD, List.getD_eq_getElem?_getD, List.getElem?_drop]
    rw [List.map_congr_left hmap, ← hdroplen, map_getD_range]

/-- Deleting disjoint ranges in descending start order equals the positional
erase of all of them. -/
theorem foldl_deleteSymbol_eq (l : List SymbolRec) :
    ∀ (buffer : List Char),
      (∀ s ∈ l, s.rstart < s.rend ∧ s.rend ≤ buffer.length) →
      l.Pairwise (fun a b => b.rstart ≤ a.rstart) →
      l.Pairwise (fun a b => a.rend ≤ b.rstart ∨ b.rend ≤ a.rstart) →
      l.foldl deleteSymbol buffer = eraseRanges buffer l := by
  induction l with
  | nil =>
    intro buffer _ _ _
    rw [List.foldl_nil, eraseRanges_nil]
  | cons s rest ih =>
    intro buffer hvalid hsort hdisj
    have hs := hvalid s (by simp)
    have hrest_le : ∀ t ∈ rest, t.rend ≤ s.rstart := by
      intro t ht
      have h1 := (List.pairwise_cons.mp hsort).1 t ht
      have h2 := (List.pairwise_cons.mp hdisj).1 t ht
      rcases h2 with h2 | h2
      · omega
      · exact h2
    rw [List.foldl_cons]
    have hnewlen : (deleteSymbol buffer s).length =
        s.rstart + (buffer.length - s.rend) := by
      unfold deleteSymbol
      rw [List.length_append, List.length_take, List.length_drop]
      omega
    rw [ih (deleteSymbol buffer s)
      (fun t ht => ⟨(hvalid t (by simp [ht])).1, by
        have := hrest_le t ht
        omega⟩)
      (List.pairwise_cons.mp hsort).2 (List.pairwise_cons.mp hdisj).2]
    unfold deleteSymbol
    rw [eraseRanges_append _ _ _ (by
      intro t ht
      rw [List.length_take]
      have := hrest_le t ht
      omega)]
    rw [← eraseRanges_cons buffer s rest hs.1 hs.2 hrest_le]

theorem insertDesc_perm (s : SymbolRec) :
    ∀ l : List SymbolRec, (insertDesc s l).Perm (s :: l) := by
  intro l
  induction l with
  | nil => rfl
  | cons t ts ih =>
    rw [insertDesc]
    split
    · rfl
    · exact (List.Perm.cons t ih).trans (List.Perm.swap s t ts)

theorem sortByStartDesc_perm :
    ∀ l : List SymbolRec, (sortByStartDesc l).Perm l := by
  intro l
  induction l with
  | nil => rfl
  | cons s ss ih =>
    rw [sortByStartDesc]
    exact (insertDesc_perm s _).trans (List.Perm.cons s ih)

theorem insertDesc_pairwise (s : SymbolRec) :
    ∀ l : List SymbolRec, l.Pairwise (fun a b => b.rstart ≤ a.rstart) →
      (insertDesc s l).Pairwise (fun a b => b.rstart ≤ a.rstart) := by
  intro l
  induction l with
  | nil =>
    intro _
    exact List.pairwise_singleton _ s
  | cons t ts ih =>
    intro h
    obtain ⟨ht, hts⟩ := List.pairwise_cons.mp h
    rw [insertDesc]
    split
    · rename_i hle
      refine List.pairwise_cons.mpr ⟨?_, h⟩
      intro b hb
      rcases List.mem_cons.mp hb with rfl | hb
      · exact hle
      · have := ht b hb
        omega
    · rename_i hgt
      push_neg at hgt
      refine List.pairwise_cons.mpr ⟨?_, ih hts⟩
      intro b hb
      have hb' := (insertDesc_perm s ts).mem_iff.mp hb
      rcases List.mem_cons.mp hb' with rfl | hb'
      · omega
      · exact ht b hb'

theorem sortByStartDesc_pairwise :
    ∀ l : List SymbolRec,
      (sortByStartDesc l).Pairwise (fun a b => b.rstart ≤ a.rstart) := by
  intro l
  induction l with
  | nil => exact List.Pairwise.nil
  | cons s ss ih => exact insertDesc_pairwise s _ ih

theorem deleteMethodLocal_eq_eraseRanges (buffer : List Char)
    (symbolList : List SymbolRec) (methodName signature : String)
    (hvalid : ∀ s ∈ symbolList.filter (matchesMethod methodName signature),
      s.rstart < s.rend ∧ s.rend ≤ buffer.length)
    (hdisj : (symbolList.filter (matchesMethod methodName signature)).Pairwise
      (fun a b => a.rend ≤ b.rstart ∨ b.rend ≤ a.rstart))
    (hne : symbolList.filter (matchesMethod methodName signature) ≠ []) :
    deleteMethodLocal buffer symbolList methodName signature =
      eraseRanges buffer (symbolList.filter (matchesMethod methodName signature)) := by
  show (if (symbolList.filter (matchesMethod methodName signature)).isEmpty then buffer
      else (sortByStartDesc
        (symbolList.filter (matchesMethod methodName signature))).foldl
          deleteSymbol buffer) = _
  rw [if_neg (by simpa [List.isEmpty_iff] using hne)]
  have hperm := sortByStartDesc_perm (symbolList.filter (matchesMethod methodName signature))
  rw [foldl_deleteSymbol_eq _ buffer
    (fun s hs => hvalid s (hperm.mem_iff.mp hs))
    (sortByStartDesc_pairwise _)
    ((hperm.pairwise_iff fun h => h.symm).mpr hdisj)]
  exact eraseRanges_perm buffer hperm

/-- C3: with an empty signature filter and two or more matching function
symbols whose ranges are valid and pairwise non-overlapping,
`deleteMethodLocal` processes the symbols in strictly descending order of
range start offset, removes exactly the text of every matching symbol's
range and leaves all text outside those ranges unchanged (the result is the
positional erase of all matching ranges), and the result does not depend on
the order in which the overloads appear in the symbol list. -/
theorem c3_deleteMethodLocal_removes_all_overloads (buffer : List Char)
    (symbolList : List SymbolRec) (methodName : String)
    (hvalid : ∀ s ∈ symbolList.filter (matchesMethod methodName ""),
      s.rstart < s.rend ∧ s.rend ≤ buffer.length)
    (hdisj : (symbolList.filter (matchesMethod methodName "")).Pairwise
      (fun a b => a.rend ≤ b.rstart ∨ b.rend ≤ a.rstart))
    (htwo : 2 ≤ (symbolList.filter (matchesMethod methodName "")).length) :
    (sortByStartDesc (symbolList.filter (matchesMethod methodName ""))).Pairwise
      (fun a b => b.rstart < a.rstart) ∧
    deleteMethodLocal buffer symbolList methodName "" =
      eraseRanges buffer (symbolList.filter (matchesMethod methodName "")) ∧
    (∀ symbolList' : List SymbolRec,
      (symbolList'.filter (matchesMethod methodName "")).Perm
        (symbolList.filter (matchesMethod methodName "")) →
      deleteMethodLocal buffer symbolList' methodName "" =
        deleteMethodLocal buffer symbolList methodName "") := by
  have hne : symbolList.filter (matchesMethod methodName "") ≠ [] := by
    intro hcon
    rw [hcon] at htwo
    simp at htwo
  refine ⟨?_, deleteMethodLocal_eq_eraseRanges buffer symbolList methodName "" hvalid hdisj hne, ?_⟩
  · have hperm := sortByStartDesc_perm (symbolList.filter (matchesMethod methodName ""))
    have hsorted := sortByStartDesc_pairwise (symbolList.filter (matchesMethod methodName ""))
    have hdisj' := (hperm.pairwise_iff fun h => h.symm).mpr hdisj
    refine (hsorted.and hdisj').imp_of_mem ?_
    intro a b ha hb hab
    have hva := hvalid a (hperm.mem_iff.mp ha)
    have hvb := hvalid b (hperm.mem_iff.mp hb)
    obtain ⟨h1, h2 | h2⟩ := hab <;> omega
  · intro symbolList' hp
    have hvalid' : ∀ s ∈ symbolList'.filter (matchesMethod methodName ""),
        s.rstart < s.rend ∧ s.rend ≤ buffer.length :=
      fun s hs => hvalid s (hp.mem_iff.mp hs)
    have hdisj' := (hp.pairwise_iff fun h => h.symm).mpr hdisj
    have hne' : symbolList'.filter (matchesMethod methodName "") ≠ [] := by
      intro hcon
      rw [hcon] at hp
      have := hp.length_eq
      simp only [List.length_nil] at this
      omega
    rw [deleteMethodLocal_eq_eraseRanges buffer symbolList' methodName "" hvalid' hdisj' hne',
      deleteMethodLocal_eq_eraseRanges buffer symbolList methodName "" hvalid hdisj hne]
    exact eraseRanges_perm buffer hp

/-- Witness for C3: a buffer with two overloads of `f` at ranges `[1,2)` and
`[3,5)`; both are removed and the text outside the two ranges is kept. -/
theorem c3_witness :
    deleteMethodLocal ['a', 'b', 'c', 'd', 'e']
        [⟨"f", true, "void ()", 1, 2⟩, ⟨"f", true, "void (int)", 3, 5⟩] "f" "" =
      eraseRanges ['a', 'b', 'c', 'd', 'e']
        (List.filter (matchesMethod "f" "")
          [⟨"f", true, "void ()", 1, 2⟩, ⟨"f", true, "void (int)", 3, 5⟩]) ∧
    deleteMethodLocal ['a', 'b', 'c', 'd', 'e']
        [⟨"f", true, "void ()", 1, 2⟩, ⟨"f", true, "void (int)", 3, 5⟩] "f" "" =
      ['a', 'c'] :=
  ⟨(c3_deleteMethodLocal_removes_all_overloads ['a', 'b', 'c', 'd', 'e']
      [⟨"f", true, "void ()", 1, 2⟩, ⟨"f", true, "void (int)", 3, 5⟩] "f"
      (by decide) (by decide) (by decide)).2.1, by decide⟩

/-!
### Member / method declaration insertion
(`CppDocument::addMemberOrMethod`, `addSpecifierSection`, `addMember`,
`addMethodDeclaration`)

The structural queries are executed by the external query engine (spec §6);
their replies are inputs here.  `insertAtPosition` and
`indentationAtPosition` live on the document base class (outside the given
files) and are modelled from the spec's TextBuffer contract.
-/

/-- `CppDocument::AccessSpecifier` (`public`/`protected`/`private` are Lean
keywords, hence the suffix). -/
inductive AccessSpecifier where
  | publicSpec
  | protectedSpec
  | privateSpec
deriving DecidableEq, Repr

/-- `accessSpecifierMap` from `cppdocument.h`. -/
def accessSpecifierMap : AccessSpecifier → List Char
  | .publicSpec => "public".toList
  | .privateSpec => "private".toList
  | .protectedSpec => "protected".toList

/-- `Core::TextRange` (`end` is a Lean keyword; the source field is `end`). -/
structure TextRange where
  start : Nat
  stop : Nat
deriving DecidableEq, Repr

/-- The query-engine replies consumed by one `addMemberOrMethod` call:
`findClassBody`'s class-body range (`none` = invalid mark), the end offset of
the last `field` capture of the access-specifier query (`result.last`,
`fields.last`; `none` = no match), the end offset of the last child captured
by `addSpecifierSection`'s query (`none` = no match), and
`indentationAtPosition`. -/
structure QueryReplies where
  classBody : Option TextRange
  lastSpecifierField : Option Nat
  lastClassChild : Option Nat
  indentAt : Nat → List Char

/-- Modelled from the spec: `insertAtPosition` (TextBuffer contract,
`insert(offset, text)`). -/
def insertAtPosition (buffer text : List Char) (pos : Nat) : List Char :=
  buffer.take pos ++ text ++ buffer.drop pos

/-- `CppDocument::MemberOrMethodAdditionResult`. -/
inductive MemberOrMethodAdditionResult where
  | Success
  | ClassNotFound
deriving DecidableEq, Repr

/-- `CppDocument::addSpecifierSection`: append a fresh specifier section after
the last child of the class body; fails when the query has no match. -/
def addSpecifierSection (q : QueryReplies) (buffer memberText : List Char)
    (specifier : AccessSpecifier) : Bool × List Char :=
  match q.lastClassChild with
  | some posEnd =>
    let indent := q.indentAt posEnd
    let newSpecifier := "\n\n".toList ++ accessSpecifierMap specifier ++ ":".toList
    (true, insertAtPosition buffer (newSpecifier ++ "\n".toList ++ indent ++ memberText) posEnd)
  | none => (false, buffer)

/-- `CppDocument::addMemberOrMethod`. -/
def addMemberOrMethod (q : QueryReplies) (buffer memberInfo : List Char)
    (specifier : AccessSpecifier) : MemberOrMethodAdditionResult × List Char :=
  let memberText := memberInfo ++ ";".toList
  match q.classBody with
  | none => (.ClassNotFound, buffer)
  | some _range =>
    match q.lastSpecifierField with
    | some posEnd =>
      let indent := q.indentAt posEnd
      (.Success, insertAtPosition buffer ("\n".toList ++ indent ++ memberText) posEnd)
    | none =>
      match addSpecifierSection q buffer memberText specifier with
      | (true, buffer2) => (.Success, buffer2)
      | (false, buffer2) => (.ClassNotFound, buffer2)

/-- `CppDocument::addMember`: logs on `ClassNotFound` and returns `true`
unconditionally. -/
def addMember (q : QueryReplies) (buffer member : List Char) (_className : String)
    (specifier : AccessSpecifier) : Bool × List Char :=
  let result := addMemberOrMethod q buffer member specifier
  (true, result.2)

/-- `CppDocument::addMethodDeclaration`: logs on `ClassNotFound` and returns
`true` unconditionally. -/
def addMethodDeclaration (q : QueryReplies) (buffer method : List Char)
    (_className : String) (specifier : AccessSpecifier) : Bool × List Char :=
  let result := addMemberOrMethod q buffer method specifier
  (true, result.2)

/-- C2: for every input (and every query-engine reply), `addMember` and
`addMethodDeclaration` return success (`true`) to the caller, including when
the containing class cannot be located; in the class-not-found case only a
log is emitted and the buffer is left unchanged; an unlocatable class body
yields a `ClassNotFound` internal result. -/
theorem c2_addMember_always_succeeds (q : QueryReplies) (buffer member : List Char)
    (className : String) (specifier : AccessSpecifier) :
    (addMember q buffer member className specifier).1 = true ∧
    (addMethodDeclaration q buffer member className specifier).1 = true ∧
    ((addMemberOrMethod q buffer member specifier).1 =
        MemberOrMethodAdditionResult.ClassNotFound →
      (addMember q buffer member className specifier).2 = buffer ∧
      (addMethodDeclaration q buffer member className specifier).2 = buffer) ∧
    (q.classBody = none →
      (addMemberOrMethod q buffer member specifier).1 =
        MemberOrMethodAdditionResult.ClassNotFound) := by
  refine ⟨rfl, rfl, ?_, ?_⟩
  · intro hcnf
    have hbuf : (addMemberOrMethod q buffer member specifier).2 = buffer := by
      rcases hcb : q.classBody with _ | range <;>
        rcases hsp : q.lastSpecifierField with _ | posEnd <;>
          rcases hlc : q.lastClassChild with _ | posEnd2 <;>
            simp_all [addMemberOrMethod, addSpecifierSection]
    constructor <;> simp [addMember, addMethodDeclaration, hbuf]
  · intro hnone
    unfold addMemberOrMethod
    rw [hnone]

/-!
### Forward declarations (`CppDocument::insertForwardDeclaration`)
-/

/-- `QString::indexOf(QChar)`: index of the first occurrence, `-1` if absent. -/
def indexOfChar (l : List Char) (c : Char) : Int :=
  match l.findIdx? (· == c) with
  | some i => (i : Int)
  | none => -1

/-- The file-name part of a path (after the last `/`), as `QFileInfo` uses. -/
def fileNamePart (p : List Char) : List Char :=
  (p.reverse.takeWhile (· ≠ '/')).reverse

/-- `QFileInfo::suffix`: everything after the last `.` of the file name,
empty when there is no dot. -/
def suffixOf (p : List Char) : List Char :=
  let f := fileNamePart p
  if f.contains '.' then (f.reverse.takeWhile (· ≠ '.')).reverse else []

/-- `isHeaderSuffix` (cppdocument.cpp): "headers starts with h or hpp". -/
def isHeaderSuffix (s : List Char) : Bool :=
  s.head? == some 'h'

/-- `CppDocument::isHeader`. -/
def isHeader (fileName : List Char) : Bool :=
  isHeaderSuffix (suffixOf fileName)

/-- Least offset at which `sep` occurs in `l`. -/
def firstMatchIdx (l sep : List Char) : Option Nat :=
  (List.range (l.length + 1)).find? fun i => sep.isPrefixOf (l.drop i)

/-- `QStringView::split(sep)` with `Qt::KeepEmptyParts` (fuelled recursion;
the fuel is ample since a split consumes at least one character). -/
def splitOnSepFuel : Nat → List Char → List Char → List (List Char)
  | 0, l, _ => [l]
  | fuel + 1, l, sep =>
    match firstMatchIdx l sep with
    | none => [l]
    | some i => l.take i :: splitOnSepFuel fuel (l.drop (i + sep.length)) sep

/-- `QStringView::split(sep)`. -/
def splitOnSep (l sep : List Char) : List (List Char) :=
  splitOnSepFuel (l.length + 1) l sep

/-- Word characters for Qt's `FindWholeWords`
(`QChar::isLetterOrNumber`, ASCII fragment). -/
def isWordChar (c : Char) : Bool := c.isAlphanum

/-- A whole-word occurrence of `needle` at offset `i` of `buffer`
(`QTextDocument::find` with `FindWholeWords`: the characters adjacent to the
match are not letters or digits). -/
def wholeWordAt (buffer needle : List Char) (i : Nat) : Bool :=
  needle.isPrefixOf (buffer.drop i) &&
    (decide (i = 0) || !isWordChar (buffer.getD (i - 1) ' ')) &&
    (decide (buffer.length ≤ i + needle.length) ||
      !isWordChar (buffer.getD (i + needle.length) ' '))

/-- `doc->find(result, cursor, QTextDocument::FindWholeWords)` succeeds. -/
def containsWholeWord (buffer needle : List Char) : Bool :=
  (List.range (buffer.length + 1)).any (wholeWordAt buffer needle)

/-- Whether offset `i` starts a line of the buffer. -/
def isLineStart (buffer : List Char) (i : Nat) : Bool :=
  decide (i = 0) || buffer.getD (i - 1) ' ' == '\n'

/-- The backward search `doc->find(QRegularExpression("^#include\\s*"),
cursor-at-end, FindBackward)`: the greatest line start whose line begins with
`#include`. -/
def lastIncludeLineStart (buffer : List Char) : Option Nat :=
  ((List.range buffer.length).filter fun i =>
    isLineStart buffer i && "#include".toList.isPrefixOf (buffer.drop i)).getLast?

/-- `QTextCursor::movePosition(EndOfLine)`: the end of the line containing
offset `p`. -/
def lineEndPos (buffer : List Char) (p : Nat) : Nat :=
  p + ((buffer.drop p).takeWhile (· ≠ '\n')).length

/-- `classOrStruct` in `insertForwardDeclaration`: `QStringView(fwddecl)
.left(spacePos)` (a negative position keeps the whole string). -/
def fwdClassOrStruct (fwddecl : List Char) : List Char :=
  let spacePos := indexOfChar fwddecl ' '
  if spacePos < 0 then fwddecl else fwddecl.take spacePos.toNat

/-- The reversed qualifier list
(`QStringView(fwddecl).mid(spacePos + 1).split("::")`, reversed). -/
def fwdQualifierList (fwddecl : List Char) : List (List Char) :=
  let spacePos := indexOfChar fwddecl ' '
  (splitOnSep (fwddecl.drop (spacePos + 1).toNat) "::".toList).reverse

/-- The un-qualified declaration `"%1 %2;"`. -/
def fwdUnqualified (fwddecl : List Char) : List Char :=
  fwdClassOrStruct fwddecl ++ " ".toList ++ (fwdQualifierList fwddecl).headD [] ++ ";".toList

/-- `CppDocument::insertForwardDeclaration(fwddecl)`: returns the reported
result and the resulting buffer. -/
def insertForwardDeclaration (fileName buffer fwddecl : List Char) : Bool × List Char :=
  if !isHeader fileName then (false, buffer)
  else
    let classOrStruct := fwdClassOrStruct fwddecl
    if fwddecl.isEmpty ||
        (!(classOrStruct == "class".toList) && !(classOrStruct == "struct".toList)) then
      (false, buffer)
    else
      let result := fwdUnqualified fwddecl
      if containsWholeWord buffer result then (false, buffer)
      else
        let result := (fwdQualifierList fwddecl).tail.foldl
          (fun acc q => "namespace ".toList ++ q ++ " \x7b\n".toList ++ acc ++ "\n\x7d".toList)
          result
        match lastIncludeLineStart buffer with
        | some i =>
          let e := lineEndPos buffer i
          (true, buffer.take e ++ "\n\n".toList ++ result ++ buffer.drop e)
        | none => (false, buffer)

/-- C1 (amended): on a header file, a well-formed forward declaration whose
un-qualified declaration already occurs in the buffer as a whole word causes
no mutation, and `insertForwardDeclaration` reports failure (`false`), not
success. -/
theorem c1_already_present_reports_failure (fileName buffer fwddecl : List Char)
    (hheader : isHeader fileName = true)
    (hwf : fwdClassOrStruct fwddecl = "class".toList ∨
      fwdClassOrStruct fwddecl = "struct".toList)
    (hpresent : containsWholeWord buffer (fwdUnqualified fwddecl) = true) :
    insertForwardDeclaration fileName buffer fwddecl = (false, buffer) := by
  have hne : fwddecl.isEmpty = false := by
    rcases hwf with hwf | hwf <;>
    · cases fwddecl with
      | nil => simp [fwdClassOrStruct, indexOfChar] at hwf
      | cons a t => rfl
  unfold insertForwardDeclaration
  rw [hheader]
  simp only [Bool.not_true, Bool.false_eq_true, if_false, hne, Bool.false_or]
  rcases hwf with hwf | hwf <;> rw [hwf] <;> simp [hpresent]

/-- Witness for the amended C1: concrete header buffer already containing
`class Bar;`. -/
theorem c1_witness :
    insertForwardDeclaration "foo.h".toList "#include <vector>\nclass Bar;\n".toList
        "class Bar".toList =
      (false, "#include <vector>\nclass Bar;\n".toList) :=
  c1_already_present_reports_failure "foo.h".toList
    "#include <vector>\nclass Bar;\n".toList "class Bar".toList
    (by decide) (by decide) (by decide)

/-- Counterexample to C1 as stated: the already-present case reports `false`
(an error return), not idempotent success — for a header file, a well-formed
declaration and a whole-word-present unqualified declaration, the call
returns `false` (the buffer is indeed left unchanged). -/
theorem c1_counterexample :
    isHeader "foo.h".toList = true ∧
    fwdClassOrStruct "class Bar".toList = "class".toList ∧
    containsWholeWord "#include <vector>\nclass Bar;\n".toList
      (fwdUnqualified "class Bar".toList) = true ∧
    (insertForwardDeclaration "foo.h".toList "#include <vector>\nclass Bar;\n".toList
        "class Bar".toList).1 = false ∧
    (insertForwardDeclaration "foo.h".toList "#include <vector>\nclass Bar;\n".toList
        "class Bar".toList).2 = "#include <vector>\nclass Bar;\n".toList := by
  refine ⟨by decide, by decide, by decide, ?_, ?_⟩ <;> decide

/-!
### Header/source counterpart resolution
(`CppDocument::correspondingHeaderSource` and its helpers)

Paths are character lists.  The filesystem (`QFile::exists`), the settings
mime-type table and the project catalog (`Project::allFilesWithExtensions`,
spec §6) are inputs.  The bidirectional cache (`static QHash`) is an
association list with first-match lookup; insertion prepends, which gives the
same map semantics as `QHash::operator[]` overwriting.  The outcome records
the returned path, the cache afterwards, and whether the probes ran
(`searched = false` exactly on a cache hit).
-/

/-- A file path. -/
abbrev Path := List Char

/-- `Document::Type`, reduced to what `matchingSuffixes` inspects. -/
inductive DocType where
  | Cpp
  | OtherType
deriving DecidableEq, Repr

/-- The environment of one resolution. -/
structure ResolverEnv where
  mimeTypes : List (Path × DocType)
  fileExists : Path → Bool
  allFilesWithExtensions : List Path → List Path

/-- `matchingSuffixes(header)`: the registered C++ suffixes of the opposite
role. -/
def matchingSuffixes (mimeTypes : List (Path × DocType)) (header : Bool) : List Path :=
  (mimeTypes.filter fun it =>
    it.2 == DocType.Cpp &&
      ((header && !isHeaderSuffix it.1) || (!header && isHeaderSuffix it.1))).map Prod.fst

/-- `candidateFileNames(baseName, suffixes)`. -/
def candidateFileNames (baseName : Path) (suffixes : List Path) : List Path :=
  suffixes.map fun suffix => baseName ++ ".".toList ++ suffix

/-- `QFileInfo::completeBaseName`: the file name up to (not including) the
last dot. -/
def completeBaseName (p : Path) : Path :=
  let f := fileNamePart p
  if f.contains '.' then ((f.reverse.dropWhile (· ≠ '.')).drop 1).reverse else f

/-- `QFileInfo::absolutePath`: the directory part of the path (before the
last `/`). -/
def absolutePath (p : Path) : Path :=
  ((p.reverse.dropWhile (· ≠ '/')).drop 1).reverse

/-- `commonFilePathLength(s1, s2)`: index of the first case-insensitive
mismatch, or the shorter length. -/
def commonFilePathLength : Path → Path → Nat
  | c1 :: t1, c2 :: t2 =>
    if c1.toLower = c2.toLower then commonFilePathLength t1 t2 + 1 else 0
  | _, _ => 0

/-- Specification-side score: the length of the common case-insensitive
character prefix. -/
def lcpCI (s1 s2 : Path) : Nat :=
  ((s1.zip s2).takeWhile fun p => p.1.toLower == p.2.toLower).length

/-- `QString::endsWith(candidate, Qt::CaseInsensitive)`. -/
def endsWithCI (path candidate : Path) : Bool :=
  decide (candidate.length ≤ path.length) &&
    (path.drop (path.length - candidate.length)).map Char.toLower ==
      candidate.map Char.toLower

/-- The "find the file having the most common path with fileName" fold:
`bestFileName`/`compareValue`, updated only on a strictly greater score. -/
def findBestPath (paths : List Path) (fileName : Path) : Path :=
  (paths.foldl
    (fun acc path =>
      let value := commonFilePathLength path fileName
      if value > acc.2 then (path, value) else acc)
    (([] : Path), 0)).1

/-- The bidirectional header/source cache. -/
abbrev HSCache := List (Path × Path)

/-- `cache.value(key)`: first match, or the empty string. -/
def cacheValue (cache : HSCache) (k : Path) : Path :=
  match cache.find? (fun e => e.1 == k) with
  | some e => e.2
  | none => []

/-- `cache[key] = value` (overwriting semantics via first-match lookup). -/
def cacheInsert (cache : HSCache) (k v : Path) : HSCache :=
  (k, v) :: cache

/-- The same-directory probe: the first existing `dir/baseName.suffix`. -/
def sameDirProbe (env : ResolverEnv) (dir : Path) (candidates : List Path) : Option Path :=
  (candidates.map fun c => dir ++ "/".toList ++ c).find? env.fileExists

/-- The surviving project files: all files with a candidate suffix whose path
ends (case-insensitively) with one of the candidate file names
(`kdalgorithms::erase_if(fullPathNames, notCandidate)` keeps exactly
these). -/
def projectSurvivors (env : ResolverEnv) (suffixes candidates : List Path) : List Path :=
  (env.allFilesWithExtensions suffixes).filter fun path =>
    !(candidates.all fun candidate => !endsWithCI path candidate)

/-- What one call to `CppDocument::correspondingHeaderSource` produces. -/
structure ResolveOutcome where
  result : Path
  cache : HSCache
  searched : Bool
deriving DecidableEq, Repr

/-- `CppDocument::correspondingHeaderSource()`. -/
def correspondingHeaderSource (env : ResolverEnv) (cache : HSCache)
    (fileName : Path) : ResolveOutcome :=
  let cacheData := cacheValue cache fileName
  if !cacheData.isEmpty then ⟨cacheData, cache, false⟩
  else
    let header := isHeader fileName
    let suffixes := matchingSuffixes env.mimeTypes header
    let candidates := candidateFileNames (completeBaseName fileName) suffixes
    match sameDirProbe env (absolutePath fileName) candidates with
    | some testFileName =>
      ⟨testFileName,
        cacheInsert (cacheInsert cache fileName testFileName) testFileName fileName,
        true⟩
    | none =>
      let fullPathNames := projectSurvivors env suffixes candidates
      let bestFileName := findBestPath fullPathNames fileName
      if !bestFileName.isEmpty then
        ⟨bestFileName,
          cacheInsert (cacheInsert cache fileName bestFileName) bestFileName fileName,
          true⟩
      else ⟨[], cache, true⟩

theorem cacheValue_insert_self (cache : HSCache) (k v : Path) :
    cacheValue (cacheInsert cache k v) k = v := by
  simp [cacheValue, cacheInsert, List.find?]

theorem cacheValue_insert_other (cache : HSCache) (k v k2 : Path) (h : k2 ≠ k) :
    cacheValue (cacheInsert cache k v) k2 = cacheValue cache k2 := by
  have : ((k, v).1 == k2) = false := by
    simp only [beq_eq_false_iff_ne, ne_eq]
    exact fun hcon => h hcon.symm
  simp [cacheValue, cacheInsert, List.find?, this]

/-- After the bidirectional insertion, the two lookups agree in both
directions. -/
theorem cacheInsert_bidirectional (cache : HSCache) (a b : Path) :
    cacheValue (cacheInsert (cacheInsert cache a b) b a) b = a ∧
    cacheValue (cacheInsert (cacheInsert cache a b) b a) a = b := by
  refine ⟨cacheValue_insert_self _ _ _, ?_⟩
  by_cases hab : a = b
  · subst hab
    rw [cacheValue_insert_self]
  · rw [cacheValue_insert_other _ _ _ _ hab, cacheValue_insert_self]

/-- A non-empty cached entry is returned directly, with no search and no
cache change. -/
theorem chs_cache_hit (env : ResolverEnv) (cache : HSCache) (fileName : Path)
    (h : (cacheValue cache fileName).isEmpty = false) :
    correspondingHeaderSource env cache fileName =
      ⟨cacheValue cache fileName, cache, false⟩ := by
  unfold correspondingHeaderSource
  simp [h]

/-- Every successful search inserts both directions into the cache. -/
theorem chs_success_shape (env : ResolverEnv) (cache : HSCache) (fileName : Path)
    (hsearch : (correspondingHeaderSource env cache fileName).searched = true)
    (hfound : (correspondingHeaderSource env cache fileName).result ≠ []) :
    ∃ r : Path, r ≠ [] ∧
      correspondingHeaderSource env cache fileName =
        ⟨r, cacheInsert (cacheInsert cache fileName r) r fileName, true⟩ := by
  cases hemp : (cacheValue cache fileName).isEmpty with
  | false =>
    rw [chs_cache_hit env cache fileName hemp] at hsearch
    simp at hsearch
  | true =>
    unfold correspondingHeaderSource at hfound ⊢
    simp only [hemp, Bool.not_true, Bool.false_eq_true, if_false] at hfound ⊢
    rcases hprobe : sameDirProbe env (absolutePath fileName)
        (candidateFileNames (completeBaseName fileName)
          (matchingSuffixes env.mimeTypes (isHeader fileName))) with _ | t
    · simp only [hprobe] at hfound ⊢
      cases hbest : (findBestPath
          (projectSurvivors env (matchingSuffixes env.mimeTypes (isHeader fileName))
            (candidateFileNames (completeBaseName fileName)
              (matchingSuffixes env.mimeTypes (isHeader fileName)))) fileName).isEmpty with
      | false =>
        simp only [hbest, Bool.not_false, if_true]
        refine ⟨_, ?_, rfl⟩
        intro hcon
        rw [hcon] at hbest
        simp at hbest
      | true =>
        simp only [hbest, Bool.not_true, Bool.false_eq_true, if_false] at hfound
        exact absurd rfl hfound
    · simp only [hprobe] at hfound ⊢
      refine ⟨t, ?_, rfl⟩
      intro hcon
      rw [hcon] at hfound
      exact hfound rfl

/-- C6: after every successful resolution (same-directory or project-wide
probe), the cache holds both directions, and a subsequent call on the found
file (under any environment) returns the original file directly from the
cache, performing no new search and leaving the cache unchanged. -/
theorem c6_cache_holds_both_directions (env : ResolverEnv) (cache : HSCache)
    (fileName : Path) (hfn : fileName ≠ [])
    (hsearch : (correspondingHeaderSource env cache fileName).searched = true)
    (hfound : (correspondingHeaderSource env cache fileName).result ≠ []) :
    cacheValue (correspondingHeaderSource env cache fileName).cache fileName =
      (correspondingHeaderSource env cache fileName).result ∧
    cacheValue (correspondingHeaderSource env cache fileName).cache
        (correspondingHeaderSource env cache fileName).result = fileName ∧
    ∀ env2 : ResolverEnv,
      correspondingHeaderSource env2 (correspondingHeaderSource env cache fileName).cache
          (correspondingHeaderSource env cache fileName).result =
        ⟨fileName, (correspondingHeaderSource env cache fileName).cache, false⟩ := by
  obtain ⟨r, hr, hkey⟩ := chs_success_shape env cache fileName hsearch hfound
  rw [hkey]
  have hbidir := cacheInsert_bidirectional cache fileName r
  refine ⟨hbidir.2, hbidir.1, ?_⟩
  intro env2
  have hhit : (cacheValue (cacheInsert (cacheInsert cache fileName r) r fileName) r).isEmpty
      = false := by
    rw [hbidir.1]
    cases fileName with
    | nil => exact absurd rfl hfn
    | cons a t => rfl
  rw [chs_cache_hit env2 _ _ hhit, hbidir.1]

/-- Witness for C6: same-directory resolution of `dir/a.h` to `dir/a.cpp`
starting from an empty cache. -/
theorem c6_witness :
    correspondingHeaderSource
        ⟨[("cpp".toList, DocType.Cpp), ("h".toList, DocType.Cpp)],
          fun p => p == "dir/a.cpp".toList, fun _ => []⟩
        []
        ("dir/a.h".toList) =
      ⟨"dir/a.cpp".toList,
        [("dir/a.cpp".toList, "dir/a.h".toList), ("dir/a.h".toList, "dir/a.cpp".toList)],
        true⟩ ∧
    cacheValue [("dir/a.cpp".toList, "dir/a.h".toList),
        ("dir/a.h".toList, "dir/a.cpp".toList)] "dir/a.h".toList = "dir/a.cpp".toList ∧
    cacheValue [("dir/a.cpp".toList, "dir/a.h".toList),
        ("dir/a.h".toList, "dir/a.cpp".toList)] "dir/a.cpp".toList = "dir/a.h".toList ∧
    ∀ env2 : ResolverEnv,
      correspondingHeaderSource env2
          [("dir/a.cpp".toList, "dir/a.h".toList), ("dir/a.h".toList, "dir/a.cpp".toList)]
          "dir/a.cpp".toList =
        ⟨"dir/a.h".toList,
          [("dir/a.cpp".toList, "dir/a.h".toList), ("dir/a.h".toList, "dir/a.cpp".toList)],
          false⟩ := by
  have happ := c6_cache_holds_both_directions
    ⟨[("cpp".toList, DocType.Cpp), ("h".toList, DocType.Cpp)],
      fun p => p == "dir/a.cpp".toList, fun _ => []⟩
    [] ("dir/a.h".toList) (by decide) (by decide) (by decide)
  have heval : correspondingHeaderSource
      ⟨[("cpp".toList, DocType.Cpp), ("h".toList, DocType.Cpp)],
        fun p => p == "dir/a.cpp".toList, fun _ => []⟩
      [] ("dir/a.h".toList) =
      ⟨"dir/a.cpp".toList,
        [("dir/a.cpp".toList, "dir/a.h".toList), ("dir/a.h".toList, "dir/a.cpp".toList)],
        true⟩ := by decide
  rw [heval] at happ
  exact ⟨heval, happ.1, happ.2.1, happ.2.2⟩

/-- C10: a failed resolution (empty result) leaves the cache completely
unchanged and ran the probes; and a subsequent call for the same file runs
the probes again (under any environment) instead of returning a cached
negative result. -/
theorem c10_failure_never_cached (env : ResolverEnv) (cache : HSCache) (fileName : Path)
    (hfail : (correspondingHeaderSource env cache fileName).result = []) :
    (correspondingHeaderSource env cache fileName).cache = cache ∧
    (correspondingHeaderSource env cache fileName).searched = true ∧
    ∀ env2 : ResolverEnv,
      (correspondingHeaderSource env2 cache fileName).searched = true := by
  have hmiss : (cacheValue cache fileName).isEmpty = true := by
    cases hemp : (cacheValue cache fileName).isEmpty with
    | true => rfl
    | false =>
      rw [chs_cache_hit env cache fileName hemp] at hfail
      have hfail2 : cacheValue cache fileName = [] := hfail
      rw [List.isEmpty_eq_false_iff_exists_mem] at hemp
      obtain ⟨x, hx⟩ := hemp
      rw [hfail2] at hx
      exact absurd hx (List.not_mem_nil x)
  have hsearch : ∀ env0 : ResolverEnv,
      (correspondingHeaderSource env0 cache fileName).searched = true := by
    intro env0
    unfold correspondingHeaderSource
    simp only [hmiss, Bool.not_true, Bool.false_eq_true, if_false]
    rcases sameDirProbe env0 (absolutePath fileName)
        (candidateFileNames (completeBaseName fileName)
          (matchingSuffixes env0.mimeTypes (isHeader fileName))) with _ | t
    · cases (findBestPath
          (projectSurvivors env0 (matchingSuffixes env0.mimeTypes (isHeader fileName))
            (candidateFileNames (completeBaseName fileName)
              (matchingSuffixes env0.mimeTypes (isHeader fileName)))) fileName).isEmpty <;>
        rfl
    · rfl
  refine ⟨?_, hsearch env, hsearch⟩
  unfold correspondingHeaderSource at hfail ⊢
  simp only [hmiss, Bool.not_true, Bool.false_eq_true, if_false] at hfail ⊢
  rcases hprobe : sameDirProbe env (absolutePath fileName)
      (candidateFileNames (completeBaseName fileName)
        (matchingSuffixes env.mimeTypes (isHeader fileName))) with _ | t
  · simp only [hprobe] at hfail ⊢
    cases hbest : (findBestPath
        (projectSurvivors env (matchingSuffixes env.mimeTypes (isHeader fileName))
          (candidateFileNames (completeBaseName fileName)
            (matchingSuffixes env.mimeTypes (isHeader fileName)))) fileName).isEmpty with
    | false =>
      simp only [hbest, Bool.not_false, if_true] at hfail
      rw [List.isEmpty_eq_false_iff_exists_mem] at hbest
      obtain ⟨x, hx⟩ := hbest
      rw [hfail] at hx
      exact absurd hx (List.not_mem_nil x)
    | true => simp only [hbest, Bool.not_true, Bool.false_eq_true, if_false]
  · simp only [hprobe] at hfail
    have hmem := List.mem_of_find?_eq_some hprobe
    rw [List.mem_map] at hmem
    obtain ⟨c, _, hc⟩ := hmem
    rw [hfail] at hc
    simp at hc

/-- Witness for C10: no counterpart exists anywhere; the cache stays empty
and any retry searches again. -/
theorem c10_witness :
    (correspondingHeaderSource
        ⟨[("cpp".toList, DocType.Cpp)], fun _ => false, fun _ => []⟩
        [] "dir/a.h".toList).cache = [] ∧
    (correspondingHeaderSource
        ⟨[("cpp".toList, DocType.Cpp)], fun _ => false, fun _ => []⟩
        [] "dir/a.h".toList).searched = true ∧
    ∀ env2 : ResolverEnv,
      (correspondingHeaderSource env2 [] "dir/a.h".toList).searched = true :=
  c10_failure_never_cached
    ⟨[("cpp".toList, DocType.Cpp)], fun _ => false, fun _ => []⟩
    [] "dir/a.h".toList (by decide)

theorem commonFilePathLength_eq_lcpCI :
    ∀ s1 s2 : Path, commonFilePathLength s1 s2 = lcpCI s1 s2 := by
  intro s1
  induction s1 with
  | nil => intro s2; cases s2 <;> rfl
  | cons c1 t1 ih =>
    intro s2
    cases s2 with
    | nil => rfl
    | cons c2 t2 =>
      rw [commonFilePathLength]
      by_cases hc : c1.toLower = c2.toLower
      · rw [if_pos hc, ih t2]
        unfold lcpCI
        rw [List.zip_cons_cons, List.takeWhile_cons_of_pos (by simpa using hc),
          List.length_cons]
      · rw [if_neg hc]
        unfold lcpCI
        rw [List.zip_cons_cons, List.takeWhile_cons_of_neg (by simpa using hc)]
        rfl

/-- The scoring fold never updates when no score beats the accumulator. -/
theorem findBestPath_fold_no_update (fileName : Path) :
    ∀ (paths : List Path) (acc : Path × Nat),
      (∀ p ∈ paths, ¬(commonFilePathLength p fileName > acc.2)) →
      paths.foldl
        (fun acc path =>
          let value := commonFilePathLength path fileName
          if value > acc.2 then (path, value) else acc) acc = acc := by
  intro paths
  induction paths with
  | nil => intro acc _; rfl
  | cons p rest ih =>
    intro acc h
    rw [List.foldl_cons]
    have hp := h p (by simp)
    simp only [if_neg hp]
    exact ih acc fun q hq => h q (by simp [hq])

/-- The scoring fold keeps the accumulator's score below a strict bound while
every score seen is below it. -/
theorem findBestPath_fold_bound (fileName : Path) :
    ∀ (paths : List Path) (acc : Path × Nat) (V : Nat),
      (∀ p ∈ paths, commonFilePathLength p fileName < V) → acc.2 < V →
      (paths.foldl
        (fun acc path =>
          let value := commonFilePathLength path fileName
          if value > acc.2 then (path, value) else acc) acc).2 < V := by
  intro paths
  induction paths with
  | nil => intro acc V _ hacc; exact hacc
  | cons p rest ih =>
    intro acc V h hacc
    rw [List.foldl_cons]
    by_cases hp : commonFilePathLength p fileName > acc.2
    · simp only [if_pos hp]
      exact ih _ V (fun q hq => h q (by simp [hq])) (h p (by simp))
    · simp only [if_neg hp]
      exact ih _ V (fun q hq => h q (by simp [hq])) hacc

/-- C7: every surviving candidate is scored by `commonFilePathLength`, which
equals the length of the common case-insensitive character prefix; the first
candidate attaining the strictly highest positive score is returned (ties
keep the first found); when all scores are zero the probe yields the empty
path, and then (when the cache missed and the same-directory probe failed)
the whole resolution fails with an empty result. -/
theorem c7_project_probe_best_score (fileName : Path) :
    (∀ s1 s2 : Path, commonFilePathLength s1 s2 = lcpCI s1 s2) ∧
    (∀ paths : List Path,
      ((∀ p ∈ paths, commonFilePathLength p fileName = 0) →
        findBestPath paths fileName = []) ∧
      (∀ (pre : List Path) (p : Path) (post : List Path),
        paths = pre ++ p :: post →
        0 < commonFilePathLength p fileName →
        (∀ q ∈ pre, commonFilePathLength q fileName < commonFilePathLength p fileName) →
        (∀ q ∈ paths, commonFilePathLength q fileName ≤ commonFilePathLength p fileName) →
        findBestPath paths fileName = p)) ∧
    (∀ (env : ResolverEnv) (cache : HSCache),
      (cacheValue cache fileName).isEmpty = true →
      sameDirProbe env (absolutePath fileName)
        (candidateFileNames (completeBaseName fileName)
          (matchingSuffixes env.mimeTypes (isHeader fileName))) = none →
      findBestPath (projectSurvivors env
        (matchingSuffixes env.mimeTypes (isHeader fileName))
        (candidateFileNames (completeBaseName fileName)
          (matchingSuffixes env.mimeTypes (isHeader fileName)))) fileName = [] →
      (correspondingHeaderSource env cache fileName).result = []) := by
  refine ⟨commonFilePathLength_eq_lcpCI, ?_, ?_⟩
  · intro paths
    constructor
    · intro hzero
      unfold findBestPath
      rw [findBestPath_fold_no_update fileName paths ([], 0)
        (fun p hp => by rw [hzero p hp]; omega)]
    · intro pre p post hsplit hpos hpre hmax
      unfold findBestPath
      rw [hsplit, List.foldl_append, List.foldl_cons]
      have hacc := findBestPath_fold_bound fileName pre ([], 0)
        (commonFilePathLength p fileName) hpre hpos
      simp only [if_pos hacc]
      rw [findBestPath_fold_no_update fileName post (p, commonFilePathLength p fileName)
        (fun q hq => by
          have := hmax q (by rw [hsplit]; simp [hq])
          omega)]
  · intro env cache hmiss hprobe hbest
    unfold correspondingHeaderSource
    simp only [hmiss, Bool.not_true, Bool.false_eq_true, if_false, hprobe, hbest,
      List.isEmpty_nil, if_false]

/-!
### Cross-file method deletion (`CppDocument::deleteMethod(name, signature)`)
-/

/-- A document of the project catalog: file name, buffer and its symbols
(the latter produced by the external engine). -/
structure DocState where
  fileName : Path
  buffer : List Char
  symbols : List SymbolRec

/-- `CppDocument::deleteMethod(methodName, signature)`.  `get` models
`Project::instance()->get(path)` followed by `qobject_cast<CppDocument *>`;
`none` covers both an absent handle and a failed cast.  The source
dereferences the handle without a null check; the `Except.error` value models
that null dereference. -/
def deleteMethod (env : ResolverEnv) (cache : HSCache)
    (get : Path → Option DocState) (self : DocState)
    (methodName signature : String) :
    Except String (DocState × Option DocState × HSCache) :=
  let out := correspondingHeaderSource env cache self.fileName
  if !out.result.isEmpty then
    match get out.result with
    | none => .error "null CppDocument handle dereferenced"
    | some hs =>
      .ok ({ hs with buffer := deleteMethodLocal hs.buffer hs.symbols methodName signature },
        some { self with
          buffer := deleteMethodLocal self.buffer self.symbols methodName signature },
        out.cache)
  else
    .ok ({ self with
        buffer := deleteMethodLocal self.buffer self.symbols methodName signature },
      none, out.cache)

/-- C9: `deleteMethod` dereferences the counterpart handle without checking
it: when every non-empty path resolved by `correspondingHeaderSource` has a
document handle in the catalog, no error is possible; but whenever the
resolved path is non-empty and the catalog returns none for it, the call is
a null-handle dereference. -/
theorem c9_deleteMethod_null_dereference (env : ResolverEnv) (cache : HSCache)
    (get : Path → Option DocState) (self : DocState) (methodName signature : String) :
    ((∀ p : Path, p ≠ [] → (get p).isSome = true) →
      ∃ r, deleteMethod env cache get self methodName signature = Except.ok r) ∧
    ((correspondingHeaderSource env cache self.fileName).result ≠ [] →
      get (correspondingHeaderSource env cache self.fileName).result = none →
      deleteMethod env cache get self methodName signature =
        Except.error "null CppDocument handle dereferenced") := by
  constructor
  · intro hcatalog
    unfold deleteMethod
    cases hres : (correspondingHeaderSource env cache self.fileName).result.isEmpty with
    | true =>
      simp only [hres, Bool.not_true, Bool.false_eq_true, if_false]
      exact ⟨_, rfl⟩
    | false =>
      simp only [hres, Bool.not_false, if_true]
      have hne : (correspondingHeaderSource env cache self.fileName).result ≠ [] := by
        intro hcon
        rw [hcon] at hres
        simp at hres
      have := hcatalog _ hne
      rcases hget : get (correspondingHeaderSource env cache self.fileName).result with _ | hs
      · rw [hget] at this
        simp at this
      · exact ⟨_, rfl⟩
  · intro hne hget
    unfold deleteMethod
    have hres : (correspondingHeaderSource env cache self.fileName).result.isEmpty = false := by
      cases hcon : (correspondingHeaderSource env cache self.fileName).result with
      | nil => exact absurd hcon hne
      | cons a t => rfl
    simp only [hres, Bool.not_false, if_true, hget]

/-!
### Preprocessor section toggle (`CppDocument::toggleSection`, no-selection
branch)

`QTextCursor` movements are modelled on the character list: `StartOfLine` /
`EndOfLine` scan to the enclosing newlines, `Up` / `Down` preserve the
column (clipped to the target line's length) and stay put at the buffer's
first/last line, `PreviousCharacter`/`NextCharacter` clip at the ends.
`QTextCursor::selectedText` is modelled as the raw slice: Qt replaces `\n`
by U+2029 in it, which cannot change any `startsWith` test against a
newline-free needle.  `QTextDocument::find(_, FindBackward)` from position
`p` finds the occurrence with the greatest start `< p`; a failed find gives
a null cursor whose `selectionStart()` is `-1`.  The symbol under the cursor
is query-engine output, passed as input (fresh on every call).
-/

/-- Start of the line containing position `p`. -/
def lineStartPos (doc : List Char) : Nat → Nat
  | 0 => 0
  | p + 1 => if doc.getD p ' ' == '\n' then p + 1 else lineStartPos doc p

/-- `QTextCursor::movePosition(Up)` from position `p` (column preserved,
clipped to the previous line; stays put on the first line). -/
def upPos (doc : List Char) (p : Nat) : Nat :=
  let ls := lineStartPos doc p
  if ls = 0 then p
  else
    let col := p - ls
    min (lineStartPos doc (ls - 1) + col) (ls - 1)

/-- `QTextCursor::movePosition(Down)` from position `p` (column preserved,
clipped to the next line; stays put on the last line). -/
def downPos (doc : List Char) (p : Nat) : Nat :=
  let le := lineEndPos doc p
  if doc.length ≤ le then p
  else
    let col := p - lineStartPos doc p
    min (le + 1 + col) (lineEndPos doc (le + 1))

/-- Whether `needle` occurs at offset `s`. -/
def listMatchAt (doc needle : List Char) (s : Nat) : Bool :=
  needle.isPrefixOf (doc.drop s)

/-- `doc->find(needle, cursor, FindBackward).selectionStart()`: the greatest
match start before `fromPos`, `-1` when there is none (null cursor). -/
def findBackwardStr (doc needle : List Char) (fromPos : Nat) : Int :=
  match ((List.range fromPos).filter fun s => listMatchAt doc needle s).getLast? with
  | some s => (s : Int)
  | none => -1

/-- `Settings::ToggleSection`: tag, debug format (empty = none), and the
type → value return table (`std::map`, exact-key lookup). -/
structure ToggleSectionSettings where
  tag : List Char
  debug : List Char
  return_values : List (List Char × List Char)

/-- The function symbol the cursor is in (`currentSymbol(isFunction)`),
with its return type. -/
structure FunctionSymbol where
  name : List Char
  returnType : List Char
  rstart : Nat
  rend : Nat
deriving DecidableEq, Repr

/-- `QString::arg`: substitute the first `%1`. -/
def argSubst (fmt arg : List Char) : List Char :=
  match firstMatchIdx fmt "%1".toList with
  | some i => fmt.take i ++ arg ++ fmt.drop (i + 2)
  | none => fmt

/-- `sectionSettings.return_values.find(returnType)`. -/
def lookupReturnValue (rv : List (List Char × List Char)) (ty : List Char) :
    Option (List Char) :=
  (rv.find? fun e => e.1 == ty).map Prod.snd

/-- `"#endif // " + tag`. -/
def tsEndifString (tag : List Char) : List Char := "#endif // ".toList ++ tag

/-- `"#ifdef " + tag`. -/
def tsIfdefString (tag : List Char) : List Char := "#ifdef ".toList ++ tag

/-- `"#else // " + tag`. -/
def tsElseString (tag : List Char) : List Char := "#else // ".toList ++ tag

/-- The text inserted just before the function's closing brace when
commenting the function out: `#else` line, optional debug statement,
type-driven return statement, `#endif` line. -/
def tsElseText (settings : ToggleSectionSettings) (tabStr : List Char)
    (sym : FunctionSymbol) : List Char :=
  let text := tsElseString settings.tag ++ "\n".toList
  let text := if settings.debug.isEmpty then text
    else text ++ tabStr ++ argSubst settings.debug sym.name ++ ";\n".toList
  let text :=
    match lookupReturnValue settings.return_values sym.returnType with
    | some v => text ++ tabStr ++ "return ".toList ++ v ++ ";\n".toList
    | none =>
      if sym.returnType.isEmpty || sym.returnType == "void".toList then
        text ++ tabStr ++ "return;\n".toList
      else if sym.returnType.getLast? == some '*' then
        text ++ tabStr ++ "return nullptr;\n".toList
      else
        text ++ tabStr ++ "return {};\n".toList
  text ++ tsEndifString settings.tag ++ "\n".toList

/-- `CppDocument::toggleSection()`, no-selection branch (lines 803–861):
returns the resulting buffer. -/
def toggleSectionNoSelection (settings : ToggleSectionSettings) (tabStr : List Char)
    (doc : List Char) (symbolOpt : Option FunctionSymbol) : List Char :=
  match symbolOpt with
  | none => doc
  | some sym =>
    let endifString := tsEndifString settings.tag
    -- setPosition(range().end); StartOfLine; Up with KeepAnchor
    let lsBrace := lineStartPos doc sym.rend
    let lsPrev := upPos doc lsBrace
    let sel := (doc.take lsBrace).drop lsPrev
    if endifString.isPrefixOf sel then
      -- remove the #ifdef/#else scaffolding
      let startI := findBackwardStr doc (tsElseString settings.tag) lsPrev
      let selFrom := if startI > (sym.rstart : Int) then startI.toNat else lsPrev
      let doc1 := doc.take selFrom ++ doc.drop lsBrace
      let p2 := (moveBlock doc1 (selFrom : Int) Dir.prev).toNat
      let p3 := downPos doc1 p2
      let p4 := lineStartPos doc1 p3
      let p5 := downPos doc1 p4
      doc1.take (min p4 p5) ++ doc1.drop (max p4 p5)
    else
      -- comment the function out
      let insPos := sym.rend - 1
      let text := tsElseText settings tabStr sym
      let doc1 := doc.take insPos ++ text ++ doc.drop insPos
      let cur := insPos + text.length
      let p2 := (moveBlock doc1 (cur : Int) Dir.prev).toNat
      let p3 := min (p2 + 1) doc1.length
      doc1.take p3 ++ "\n".toList ++ tsIfdefString settings.tag ++ doc1.drop p3

/-- Pooled delimiter balance for a backward scan: every suffix of `l` has at
least as many closers as openers (no prefix of the reversed list drives the
counter negative) and the totals cancel. -/
def poolBalanced (l : List Char) : Prop :=
  (∀ n ≤ l.length, 0 ≤ listDelta Dir.prev (l.reverse.take n)) ∧
    listDelta Dir.prev l = 0

theorem listDelta_reverse (dir : Dir) (l : List Char) :
    listDelta dir l.reverse = listDelta dir l := by
  unfold listDelta
  rw [List.map_reverse, List.sum_reverse]

theorem poolBalanced_nil : poolBalanced [] := by
  refine ⟨?_, rfl⟩
  intro n hn
  have : n = 0 := by simpa using hn
  subst this
  simp [listDelta]

theorem poolBalanced_of_no_delims (l : List Char)
    (h : ∀ ch ∈ l, delimDelta Dir.prev ch = 0) : poolBalanced l := by
  have hall : ∀ sub : List Char, (∀ ch ∈ sub, ch ∈ l) → listDelta Dir.prev sub = 0 := by
    intro sub
    induction sub with
    | nil => intro _; rfl
    | cons a t ih =>
      intro hsub
      rw [listDelta_cons, h a (hsub a (by simp)), ih fun ch hch => hsub ch (by simp [hch])]
      ring
  constructor
  · intro n hn
    rw [hall (l.reverse.take n) fun ch hch =>
      List.mem_reverse.mp (List.mem_of_mem_take hch)]
  · exact hall l fun _ hch => hch

theorem poolBalanced_append (A B : List Char) (hA : poolBalanced A)
    (hB : poolBalanced B) : poolBalanced (A ++ B) := by
  obtain ⟨hAs, hAn⟩ := hA
  obtain ⟨hBs, hBn⟩ := hB
  constructor
  · intro n hn
    rw [List.reverse_append]
    by_cases hcase : n ≤ B.length
    · rw [List.take_append_of_le_length (by simpa using hcase)]
      exact hBs n hcase
    · push_neg at hcase
      rw [List.take_append_eq_append_take, List.take_of_length_le (by simpa using hcase.le),
        listDelta_append, List.length_reverse]
      have h1 := hAs (n - B.length) (by simp at hn ⊢; omega)
      rw [listDelta_reverse, hBn]
      omega
  · rw [listDelta_append, hAn, hBn]
    norm_num

theorem poolBalanced_cons_neutral (c : Char) (l : List Char)
    (hc : delimDelta Dir.prev c = 0) (h : poolBalanced l) :
    poolBalanced (c :: l) := by
  have := poolBalanced_append [c] l (poolBalanced_of_no_delims [c] (by simpa using hc)) h
  simpa using this

theorem poolBalanced_concat_neutral (c : Char) (l : List Char)
    (hc : delimDelta Dir.prev c = 0) (h : poolBalanced l) :
    poolBalanced (l ++ [c]) :=
  poolBalanced_append l [c] h (poolBalanced_of_no_delims [c] (by simpa using hc))

theorem poolBalanced_of_concat_neutral (c : Char) (l : List Char)
    (hc : delimDelta Dir.prev c = 0) (h : poolBalanced (l ++ [c])) :
    poolBalanced l := by
  obtain ⟨hs, hn⟩ := h
  constructor
  · intro n hle
    have := hs (n + 1) (by simpa using Nat.add_le_add_right hle 1)
    rw [List.reverse_append] at this
    simp only [List.reverse_singleton, List.singleton_append, List.take_succ_cons,
      listDelta_cons, hc] at this
    omega
  · rw [listDelta_append, listDelta_cons, listDelta_nil, hc] at hn
    omega

/-- The backward scan through positions `p, p-1, …, 1` visits the reverse of
`doc[1..p]`. -/
theorem scanChars_prev_eq (doc : List Char) :
    ∀ p : Nat, p < doc.length →
      scanChars doc Dir.prev 0 (p : Int) = ((doc.drop 1).take p).reverse := by
  intro p
  induction p with
  | zero =>
    intro _
    rw [scanChars_eq_nil]
    · rfl
    · rfl
  | succ p ih =>
    intro hp
    rw [scanChars_eq_cons doc Dir.prev 0 _ (by simp [hitLast])]
    have hchar : characterAt doc ((p + 1 : Nat) : Int) = doc.getD (p + 1) ' ' := by
      unfold characterAt
      rw [if_pos (by constructor <;> [positivity; exact_mod_cast hp])]
      simp
    have hdrop : (doc.drop 1).take (p + 1) = (doc.drop 1).take p ++ [doc.getD (p + 1) ' '] := by
      rw [List.take_succ]
      congr 1
      rw [List.getElem?_drop, show 1 + p = p + 1 from by omega,
        List.getElem?_eq_getElem (by omega), List.getD_eq_getElem?_getD,
        List.getElem?_eq_getElem (by omega)]
      rfl
    rw [hdrop, List.reverse_append, List.reverse_singleton, List.singleton_append]
    have : ((p + 1 : Nat) : Int) + Dir.prev.inc = (p : Int) := by
      simp [Dir.inc]
    rw [this, ih (by omega), hchar]

/-- Scanning a list whose prefix never drives the counter negative continues
into the suffix with the accumulated balance. -/
theorem scanList_skip_prefix (dir : Dir) :
    ∀ (A B : List Char) (c0 : Int),
      (∀ n ≤ A.length, 0 ≤ c0 + listDelta dir (A.take n)) →
      scanList dir (A ++ B) c0 =
        (scanList dir B (c0 + listDelta dir A)).map (· + A.length) := by
  intro A
  induction A with
  | nil =>
    intro B c0 _
    rw [List.nil_append, listDelta_nil, add_zero]
    simp
  | cons a A ih =>
    intro B c0 hsafe
    rw [List.cons_append, scanList_cons]
    by_cases hinc : (incChars dir).contains a = true
    · rw [if_pos hinc, ih B (c0 + 1) ?side]
      case side =>
        intro n hn
        have := hsafe (n + 1) (by simpa using Nat.add_le_add_right hn 1)
        rw [List.take_succ_cons, listDelta_cons, delimDelta_of_inc dir a hinc] at this
        omega
      rw [listDelta_cons, delimDelta_of_inc dir a hinc]
      rw [show c0 + (1 + listDelta dir A) = c0 + 1 + listDelta dir A from by ring]
      rw [Option.map_map]
      congr 1
    · rw [Bool.not_eq_true] at hinc
      rw [if_neg (by intro hcon; rw [hcon] at hinc; exact absurd hinc (by decide))]
      by_cases hdec : (decChars dir).contains a = true
      · rw [if_pos hdec]
        have hnostop : ¬(c0 - 1 < 0) := by
          have := hsafe 1 (by simp)
          rw [List.take_succ_cons, List.take_zero, listDelta_cons, listDelta_nil,
            delimDelta_of_dec dir a hinc hdec] at this
          omega
        rw [if_neg hnostop, ih B (c0 - 1) ?side2]
        case side2 =>
          intro n hn
          have := hsafe (n + 1) (by simpa using Nat.add_le_add_right hn 1)
          rw [List.take_succ_cons, listDelta_cons, delimDelta_of_dec dir a hinc hdec] at this
          omega
        rw [listDelta_cons, delimDelta_of_dec dir a hinc hdec]
        rw [show c0 + (-1 + listDelta dir A) = c0 - 1 + listDelta dir A from by ring]
        rw [Option.map_map]
        congr 1
      · rw [Bool.not_eq_true] at hdec
        rw [if_neg (by intro hcon; rw [hcon] at hdec; exact absurd hdec (by decide)), ih B c0 ?side3]
        case side3 =>
          intro n hn
          have := hsafe (n + 1) (by simpa using Nat.add_le_add_right hn 1)
          rw [List.take_succ_cons, listDelta_cons,
            delimDelta_of_other dir a hinc hdec] at this
          omega
        rw [listDelta_cons, delimDelta_of_other dir a hinc hdec]
        rw [show c0 + (0 + listDelta dir A) = c0 + listDelta dir A from by ring]
        rw [Option.map_map]
        congr 1

theorem characterAt_eq_getD (doc : List Char) (n : Nat) (h : n < doc.length) :
    characterAt doc (n : Int) = doc.getD n ' ' := by
  unfold characterAt
  rw [if_pos (by constructor <;> [positivity; exact_mod_cast h])]
  simp

theorem getD_concat_at (A : List Char) (b : Char) (rest : List Char) :
    (A ++ b :: rest).getD A.length ' ' = b := by
  rw [List.getD_append_right _ _ _ _ le_rfl]
  simp

theorem scanList_prev_openBrace (l : List Char) (counter : Int) (hc : counter ≤ 0) :
    scanList Dir.prev ('{' :: l) counter = some 0 := by
  rw [scanList_cons]
  rw [if_neg (by decide), if_pos (by decide), if_pos (by omega)]

/-- A backward `moveBlock` started just right of a non-closer character, with
a pool-balanced segment `M` between the opening brace and that character,
lands on the brace. -/
theorem moveBlock_prev_hits_open (X M : List Char) (c : Char) (rest : List Char)
    (hX : 1 ≤ X.length)
    (hcne : (incChars Dir.prev).contains c = false)
    (hM : poolBalanced M) :
    moveBlock (X ++ '{' :: (M ++ c :: rest)) ((X.length + M.length + 2 : Nat) : Int)
      Dir.prev = (X.length : Int) := by
  set doc := X ++ '{' :: (M ++ c :: rest) with hdoc
  have hassoc : doc = (X ++ '{' :: M) ++ c :: rest := by
    rw [hdoc, List.append_assoc, List.cons_append]
  have hlen : doc.length = X.length + M.length + rest.length + 2 := by
    rw [hdoc]
    simp
    omega
  have hXM_len : (X ++ '{' :: M).length = X.length + M.length + 1 := by
    simp
    omega
  have hcpos : X.length + M.length + 1 < doc.length := by omega
  have hchar_c : characterAt doc ((X.length + M.length + 1 : Nat) : Int) = c := by
    rw [characterAt_eq_getD doc _ (by omega), hassoc,
      show X.length + M.length + 1 = (X ++ '{' :: M).length from by omega,
      getD_concat_at]
  have hne : ((X.length + M.length + 2 : Nat) : Int) ≠ lastPosOf doc Dir.prev := by
    simp only [lastPosOf]
    push_cast
    omega
  have hmb : moveBlock doc ((X.length + M.length + 2 : Nat) : Int) Dir.prev =
      match scanBlock doc Dir.prev (lastPosOf doc Dir.prev)
        (scanStart doc ((X.length + M.length + 2 : Nat) : Int) Dir.prev) 0 with
      | some p => p + max Dir.prev.inc 0
      | none => ((X.length + M.length + 2 : Nat) : Int) := by
    rw [moveBlock, scanStart]
    simp only [if_neg hne]
  have hss : scanStart doc ((X.length + M.length + 2 : Nat) : Int) Dir.prev =
      ((X.length + M.length : Nat) : Int) := by
    have harg : ((X.length + M.length + 2 : Nat) : Int) + Dir.prev.inc =
        ((X.length + M.length + 1 : Nat) : Int) := by
      simp only [Dir.inc]
      push_cast
      ring
    show (if (incChars Dir.prev).contains
        (characterAt doc (((X.length + M.length + 2 : Nat) : Int) + Dir.prev.inc)) = true then
        ((X.length + M.length + 2 : Nat) : Int) + Dir.prev.inc + Dir.prev.inc
      else ((X.length + M.length + 2 : Nat) : Int) + Dir.prev.inc) + Dir.prev.inc =
        ((X.length + M.length : Nat) : Int)
    rw [harg, hchar_c, if_neg (by rw [hcne]; exact fun hcon => absurd hcon (by decide))]
    simp only [Dir.inc]
    push_cast
    omega
  rw [hmb, hss, scanBlock_eq_scanList doc Dir.prev (lastPosOf doc Dir.prev)]
  have hscan : scanChars doc Dir.prev (lastPosOf doc Dir.prev)
      ((X.length + M.length : Nat) : Int) =
      M.reverse ++ '{' :: (X.drop 1).reverse := by
    have h0 : lastPosOf doc Dir.prev = 0 := rfl
    rw [h0, scanChars_prev_eq doc _ (by omega)]
    rcases X with _ | ⟨x, X2⟩
    · simp at hX
    · have hdrop1 : doc.drop 1 = (X2 ++ '{' :: M) ++ c :: rest := by
        rw [hassoc]
        rfl
      rw [hdrop1, List.take_left' (by simp; omega), List.reverse_append,
        List.reverse_cons, List.append_assoc, List.singleton_append]
      rfl
  rw [hscan, scanList_skip_prefix Dir.prev M.reverse ('{' :: (X.drop 1).reverse) 0
    (by
      intro n hn
      rw [zero_add]
      exact hM.1 n (by simpa using hn))]
  rw [listDelta_reverse, hM.2, zero_add,
    scanList_prev_openBrace _ 0 le_rfl]
  simp only [Option.map_some', Nat.zero_add, List.length_reverse]
  simp only [Dir.inc]
  rw [show ((-1 : Int) ⊔ 0) = 0 from by decide]
  push_cast
  ring_nf

theorem lineStartPos_eq_of (doc : List Char) (q : Nat) :
    ∀ p, q ≤ p → (q = 0 ∨ doc.getD (q - 1) ' ' = '\n') →
      (∀ i, q ≤ i → i < p → doc.getD i ' ' ≠ '\n') →
      lineStartPos doc p = q := by
  intro p
  induction p with
  | zero =>
    intro hqp _ _
    have hq0 : q = 0 := by omega
    subst hq0
    rfl
  | succ p ih =>
    intro hqp hq hno
    rw [lineStartPos]
    by_cases hp : q = p + 1
    · subst hp
      rcases hq with hq | hq
      · omega
      · simp only [Nat.add_sub_cancel] at hq
        rw [if_pos (by simpa using hq)]
    · have hqle : q ≤ p := by omega
      have hchar : doc.getD p ' ' ≠ '\n' := hno p hqle (by omega)
      rw [if_neg (by simpa using hchar)]
      exact ih hqle hq fun i h1 h2 => hno i h1 (by omega)

theorem length_takeWhile_ne (l : List Char) :
    ∀ k : Nat, k ≤ l.length →
      (∀ i, i < k → l.getD i ' ' ≠ '\n') →
      (k = l.length ∨ l.getD k ' ' = '\n') →
      (l.takeWhile (· ≠ '\n')).length = k := by
  induction l with
  | nil =>
    intro k hk _ _
    have : k = 0 := by simpa using hk
    subst this
    rfl
  | cons a t ih =>
    intro k hk hbefore hstop
    cases k with
    | zero =>
      rcases hstop with hstop | hstop
      · rw [List.length_cons] at hstop
        omega
      · have ha : a = '\n' := hstop
        rw [List.takeWhile_cons_of_neg (by simp [ha])]
        rfl
    | succ k =>
      have ha : a ≠ '\n' := hbefore 0 (by omega)
      rw [List.takeWhile_cons_of_pos (by simpa using ha), List.length_cons]
      rw [ih k (by simpa using hk) (fun i hi => hbefore (i + 1) (by omega)) ?stop]
      case stop =>
        rcases hstop with hstop | hstop
        · left
          rw [List.length_cons] at hstop
          omega
        · right
          exact hstop

theorem lineEndPos_eq_of (doc : List Char) (p e : Nat) (hpe : p ≤ e)
    (hel : e ≤ doc.length)
    (he : e = doc.length ∨ doc.getD e ' ' = '\n')
    (hno : ∀ i, p ≤ i → i < e → doc.getD i ' ' ≠ '\n') :
    lineEndPos doc p = e := by
  unfold lineEndPos
  have hlen : ((doc.drop p).takeWhile (· ≠ '\n')).length = e - p := by
    refine length_takeWhile_ne (doc.drop p) (e - p) (by rw [List.length_drop]; omega)
      ?_ ?_
    · intro i hi
      have : (doc.drop p).getD i ' ' = doc.getD (p + i) ' ' := by
        rw [List.getD_eq_getElem?_getD, List.getD_eq_getElem?_getD, List.getElem?_drop]
      rw [this]
      exact hno (p + i) (by omega) (by omega)
    · rcases he with he | he
      · left
        rw [List.length_drop]
        omega
      · right
        have : (doc.drop p).getD (e - p) ' ' = doc.getD (p + (e - p)) ' ' := by
          rw [List.getD_eq_getElem?_getD, List.getD_eq_getElem?_getD, List.getElem?_drop]
        rw [this, show p + (e - p) = e from by omega]
        exact he
  omega

theorem getLast?_filter_range (p : Nat → Bool) (s : Nat) (hs : p s = true) :
    ∀ n, s < n → (∀ u, s < u → u < n → p u = false) →
      ((List.range n).filter p).getLast? = some s := by
  intro n
  induction n with
  | zero => omega
  | succ n ih =>
    intro hsn hnone
    rw [List.range_succ, List.filter_append]
    by_cases hcase : s = n
    · subst hcase
      rw [show List.filter p [s] = [s] from by simp [hs]]
      exact List.getLast?_concat _
    · have hn : p n = false := hnone n (by omega) (by omega)
      rw [show List.filter p [n] = [] from by simp [hn], List.append_nil]
      exact ih (by omega) fun u h1 h2 => hnone u h1 (by omega)

theorem findBackwardStr_eq (doc needle : List Char) (fromPos : Nat) (s : Nat)
    (hmatch : listMatchAt doc needle s = true) (hlt : s < fromPos)
    (hnone : ∀ u, s < u → u < fromPos → listMatchAt doc needle u = false) :
    findBackwardStr doc needle fromPos = (s : Int) := by
  unfold findBackwardStr
  rw [getLast?_filter_range _ s hmatch fromPos hlt hnone]

/-- The generated `#else` block decomposes into the `#else` line, middle
lines and a final `#endif` line. -/
theorem tsElseText_decomp (settings : ToggleSectionSettings) (tabStr : List Char)
    (sym : FunctionSymbol) :
    ∃ mid : List Char,
      tsElseText settings tabStr sym =
        tsElseString settings.tag ++ '\n' :: mid ++ '\n' ::
          tsEndifString settings.tag ++ ['\n'] := by
  have h1 : ("\n".toList : List Char) = ['\n'] := rfl
  have h2 : (";\n".toList : List Char) = [';', '\n'] := rfl
  have h3 : ("return;\n".toList : List Char) = "return;".toList ++ ['\n'] := rfl
  have h4 : ("return nullptr;\n".toList : List Char) = "return nullptr;".toList ++ ['\n'] := rfl
  have h5 : ("return {};\n".toList : List Char) = "return {};".toList ++ ['\n'] := rfl
  unfold tsElseText
  by_cases hdbg : settings.debug.isEmpty
  · simp only [hdbg, if_true]
    rcases hlook : lookupReturnValue settings.return_values sym.returnType with _ | v
    · simp only [hlook]
      by_cases hvoid : (sym.returnType.isEmpty || sym.returnType == "void".toList) = true
      · simp only [hvoid, if_true]
        refine ⟨tabStr ++ "return;".toList, ?_⟩
        simp [h1, h3, List.append_assoc]
      · simp only [hvoid, if_false]
        by_cases hstar : (sym.returnType.getLast? == some '*') = true
        · simp only [hstar, if_true]
          refine ⟨tabStr ++ "return nullptr;".toList, ?_⟩
          simp [h1, h4, List.append_assoc]
        · simp only [hstar, if_false]
          refine ⟨tabStr ++ "return {};".toList, ?_⟩
          simp [h1, h5, List.append_assoc]
    · simp only [hlook]
      refine ⟨tabStr ++ "return ".toList ++ v ++ [';'], ?_⟩
      simp [h1, h2, List.append_assoc]
  · rw [Bool.not_eq_true] at hdbg
    simp only [hdbg, Bool.false_eq_true, if_false]
    rcases hlook : lookupReturnValue settings.return_values sym.returnType with _ | v
    · simp only [hlook]
      by_cases hvoid : (sym.returnType.isEmpty || sym.returnType == "void".toList) = true
      · simp only [hvoid, if_true]
        refine ⟨(tabStr ++ argSubst settings.debug sym.name ++ ";\n".toList) ++
          tabStr ++ "return;".toList, ?_⟩
        simp [h1, h2, h3, List.append_assoc]
      · simp only [hvoid, if_false]
        by_cases hstar : (sym.returnType.getLast? == some '*') = true
        · simp only [hstar, if_true]
          refine ⟨(tabStr ++ argSubst settings.debug sym.name ++ ";\n".toList) ++
            tabStr ++ "return nullptr;".toList, ?_⟩
          simp [h1, h2, h4, List.append_assoc]
        · simp only [hstar, if_false]
          refine ⟨(tabStr ++ argSubst settings.debug sym.name ++ ";\n".toList) ++
            tabStr ++ "return {};".toList, ?_⟩
          simp [h1, h2, h5, List.append_assoc]
    · simp only [hlook]
      refine ⟨(tabStr ++ argSubst settings.debug sym.name ++ ";\n".toList) ++
        tabStr ++ "return ".toList ++ v ++ [';'], ?_⟩
      simp [h1, h2, List.append_assoc]

end Knut

namespace Knut
theorem toggle_insert_step (settings : ToggleSectionSettings) (tabStr : List Char)
    (P B S name rt : List Char) (rstart1 : Nat)
    (hP : 1 ≤ P.length) (hB : poolBalanced B)
    (hE : poolBalanced (tsElseText settings tabStr
      ⟨name, rt, rstart1, P.length + B.length + 4⟩))
    (hnotyet : (tsEndifString settings.tag).isPrefixOf
      (((P ++ '{' :: '\n' :: (B ++ '\n' :: '}' :: S)).take
          (lineStartPos (P ++ '{' :: '\n' :: (B ++ '\n' :: '}' :: S))
            (P.length + B.length + 4))).drop
        (upPos (P ++ '{' :: '\n' :: (B ++ '\n' :: '}' :: S))
          (lineStartPos (P ++ '{' :: '\n' :: (B ++ '\n' :: '}' :: S))
            (P.length + B.length + 4)))) = false) :
    toggleSectionNoSelection settings tabStr (P ++ '{' :: '\n' :: (B ++ '\n' :: '}' :: S))
      (some ⟨name, rt, rstart1, P.length + B.length + 4⟩) =
      P ++ '{' :: '\n' :: (tsIfdefString settings.tag ++ '\n' ::
        (B ++ '\n' :: (tsElseText settings tabStr
          ⟨name, rt, rstart1, P.length + B.length + 4⟩ ++ '}' :: S))) := by
  simp only [toggleSectionNoSelection]
  rw [if_neg (by rw [hnotyet]; exact fun hcon => absurd hcon (by decide))]
  set E := tsElseText settings tabStr ⟨name, rt, rstart1, P.length + B.length + 4⟩ with hEdef
  obtain ⟨mid, hmid⟩ := tsElseText_decomp settings tabStr
    ⟨name, rt, rstart1, P.length + B.length + 4⟩
  rw [← hEdef] at hmid
  set E2 := tsElseString settings.tag ++ '\n' :: mid ++ '\n' :: tsEndifString settings.tag
    with hE2def
  have hEsplit : E = E2 ++ ['\n'] := by
    rw [hmid, hE2def]
  rw [show P.length + B.length + 4 - 1 = P.length + B.length + 3 from by omega]
  have htake : (P ++ '{' :: '\n' :: (B ++ '\n' :: '}' :: S)).take (P.length + B.length + 3) =
      P ++ '{' :: '\n' :: B ++ ['\n'] := by
    rw [show P ++ '{' :: '\n' :: (B ++ '\n' :: '}' :: S) =
      (P ++ '{' :: '\n' :: B ++ ['\n']) ++ '}' :: S from by simp]
    exact List.take_left' (by simp; omega)
  have hdropList : (P ++ '{' :: '\n' :: (B ++ '\n' :: '}' :: S)).drop (P.length + B.length + 3) =
      '}' :: S := by
    rw [show P ++ '{' :: '\n' :: (B ++ '\n' :: '}' :: S) =
      (P ++ '{' :: '\n' :: B ++ ['\n']) ++ '}' :: S from by simp]
    exact List.drop_left' (by simp; omega)
  rw [htake, hdropList]
  have hM : poolBalanced ('\n' :: (B ++ '\n' :: E2)) := by
    refine poolBalanced_cons_neutral _ _ (by decide) ?_
    refine poolBalanced_append _ _ hB ?_
    refine poolBalanced_cons_neutral _ _ (by decide) ?_
    exact poolBalanced_of_concat_neutral '\n' E2 (by decide) (hEsplit ▸ hE)
  have hshape : (P ++ '{' :: '\n' :: B ++ ['\n']) ++ E ++ '}' :: S =
      P ++ '{' :: (('\n' :: (B ++ '\n' :: E2)) ++ '\n' :: ('}' :: S)) := by
    rw [hEsplit]
    simp [List.append_assoc]
  have harg : P.length + B.length + 3 + E.length =
      P.length + ('\n' :: (B ++ '\n' :: E2)).length + 2 := by
    have : E.length = E2.length + 1 := by rw [hEsplit]; simp
    simp [this]
    omega
  rw [hshape, harg, moveBlock_prev_hits_open P ('\n' :: (B ++ '\n' :: E2)) '\n' ('}' :: S)
    hP (by decide) hM]
  rw [Int.toNat_natCast]
  have hlenBig : P.length + 1 ≤ (P ++ '{' :: (('\n' :: (B ++ '\n' :: E2)) ++ '\n' :: ('}' :: S))).length := by
    simp
  rw [min_eq_left hlenBig]
  have htake2 : (P ++ '{' :: (('\n' :: (B ++ '\n' :: E2)) ++ '\n' :: ('}' :: S))).take (P.length + 1) =
      P ++ ['{'] := by
    rw [show P ++ '{' :: (('\n' :: (B ++ '\n' :: E2)) ++ '\n' :: ('}' :: S)) =
      (P ++ ['{']) ++ (('\n' :: (B ++ '\n' :: E2)) ++ '\n' :: ('}' :: S)) from by simp]
    exact List.take_left' (by simp)
  have hdrop2 : (P ++ '{' :: (('\n' :: (B ++ '\n' :: E2)) ++ '\n' :: ('}' :: S))).drop (P.length + 1) =
      ('\n' :: (B ++ '\n' :: E2)) ++ '\n' :: ('}' :: S) := by
    rw [show P ++ '{' :: (('\n' :: (B ++ '\n' :: E2)) ++ '\n' :: ('}' :: S)) =
      (P ++ ['{']) ++ (('\n' :: (B ++ '\n' :: E2)) ++ '\n' :: ('}' :: S)) from by simp]
    exact List.drop_left' (by simp)
  rw [htake2, hdrop2, hEsplit]
  simp [List.append_assoc]
end Knut

namespace Knut

theorem getD_ne_of_forall (l : List Char) (c : Char) (hl : ∀ ch ∈ l, ch ≠ c)
    (i : Nat) (hi : i < l.length) : l.getD i ' ' ≠ c := by
  rw [List.getD_eq_getElem l ' ' hi]
  exact hl _ (List.getElem_mem hi)

theorem lineStartPos_le (doc : List Char) : ∀ p, lineStartPos doc p ≤ p := by
  intro p
  induction p with
  | zero => exact le_rfl
  | succ p ih =>
    rw [lineStartPos]
    by_cases h : doc.getD p ' ' == '\n'
    · rw [if_pos h]
    · rw [if_neg h]
      omega

theorem le_lineEndPos (doc : List Char) (p : Nat) : p ≤ lineEndPos doc p := by
  unfold lineEndPos
  exact Nat.le_add_right _ _

theorem toggle_remove_step (settings : ToggleSectionSettings) (tabStr : List Char)
    (P B S : List Char) (sym1 : FunctionSymbol) (name2 rt2 : List Char) (rstart2 : Nat)
    (hP : 1 ≤ P.length) (hB : poolBalanced B)
    (htag : ∀ ch ∈ settings.tag, ch ≠ '\n' ∧ delimDelta Dir.prev ch = 0)
    (hr2 : rstart2 ≤ P.length)
    (h_noelse : ∀ u,
      u < P.length + (tsIfdefString settings.tag).length + B.length +
        (tsElseText settings tabStr sym1).length + 3 - (tsEndifString settings.tag).length →
      P.length + (tsIfdefString settings.tag).length + B.length + 4 < u →
      listMatchAt (P ++ '{' :: '\n' :: (tsIfdefString settings.tag ++ '\n' ::
        (B ++ '\n' :: (tsElseText settings tabStr sym1 ++ '}' :: S))))
        (tsElseString settings.tag) u = false) :
    toggleSectionNoSelection settings tabStr
      (P ++ '{' :: '\n' :: (tsIfdefString settings.tag ++ '\n' ::
        (B ++ '\n' :: (tsElseText settings tabStr sym1 ++ '}' :: S))))
      (some ⟨name2, rt2, rstart2,
        P.length + (tsIfdefString settings.tag).length + B.length +
          (tsElseText settings tabStr sym1).length + 5⟩) =
      P ++ '{' :: '\n' :: (B ++ '\n' :: '}' :: S) := by
  set F := tsIfdefString settings.tag with hFdef
  set E := tsElseText settings tabStr sym1 with hEdef
  obtain ⟨mid, hmid⟩ := tsElseText_decomp settings tabStr sym1
  rw [← hEdef] at hmid
  set el := tsElseString settings.tag with heldef
  set en := tsEndifString settings.tag with hendef
  set doc2 := P ++ '{' :: '\n' :: (F ++ '\n' :: (B ++ '\n' :: (E ++ '}' :: S))) with hdoc2
  -- newline- and delimiter-freeness of the generated marker lines
  have hlitF : ∀ ch ∈ ("#ifdef ".toList : List Char),
      ch ≠ '\n' ∧ delimDelta Dir.prev ch = 0 := by decide
  have hlitEn : ∀ ch ∈ ("#endif // ".toList : List Char),
      ch ≠ '\n' ∧ delimDelta Dir.prev ch = 0 := by decide
  have hFprop : ∀ ch ∈ F, ch ≠ '\n' ∧ delimDelta Dir.prev ch = 0 := by
    intro ch hch
    rw [hFdef, tsIfdefString] at hch
    rcases List.mem_append.mp hch with h | h
    · exact hlitF ch h
    · exact htag ch h
  have hEnprop : ∀ ch ∈ en, ch ≠ '\n' ∧ delimDelta Dir.prev ch = 0 := by
    intro ch hch
    rw [hendef, tsEndifString] at hch
    rcases List.mem_append.mp hch with h | h
    · exact hlitEn ch h
    · exact htag ch h
  -- length bookkeeping
  have hLE : E.length = el.length + mid.length + en.length + 3 := by
    rw [hmid]
    simp
    omega
  -- segment decompositions of doc2
  have hs4 : doc2 = (P ++ '{' :: '\n' :: (F ++ '\n' :: (B ++ ['\n']))) ++ (E ++ '}' :: S) := by
    rw [hdoc2]
    simp [List.append_assoc]
  have hs4len : (P ++ '{' :: '\n' :: (F ++ '\n' :: (B ++ ['\n']))).length =
      P.length + F.length + B.length + 4 := by
    simp
    omega
  have hsel : doc2 = (P ++ '{' :: '\n' :: (F ++ '\n' :: (B ++ ['\n']))) ++
      (el ++ '\n' :: mid ++ '\n' :: en ++ '\n' :: '}' :: S) := by
    rw [hs4, hmid]
    simp [List.append_assoc]
  have hs0 : doc2 = ((P ++ '{' :: '\n' :: (F ++ '\n' :: (B ++ ['\n']))) ++ el ++ '\n' :: mid) ++
      '\n' :: (en ++ '\n' :: '}' :: S) := by
    rw [hsel]
    simp [List.append_assoc]
  have hs0len : ((P ++ '{' :: '\n' :: (F ++ '\n' :: (B ++ ['\n']))) ++ el ++ '\n' :: mid).length =
      P.length + F.length + B.length + el.length + mid.length + 5 := by
    simp
    omega
  have hs1 : doc2 = (((P ++ '{' :: '\n' :: (F ++ '\n' :: (B ++ ['\n']))) ++ el ++ '\n' :: mid) ++
      ['\n']) ++ (en ++ '\n' :: '}' :: S) := by
    rw [hs0]
    simp [List.append_assoc]
  have hs1len : ((((P ++ '{' :: '\n' :: (F ++ '\n' :: (B ++ ['\n']))) ++ el ++ '\n' :: mid) ++
      ['\n'])).length = P.length + F.length + B.length + el.length + mid.length + 6 := by
    simp
    omega
  have hs2 : doc2 = ((((P ++ '{' :: '\n' :: (F ++ '\n' :: (B ++ ['\n']))) ++ el ++ '\n' :: mid) ++
      ['\n']) ++ en) ++ '\n' :: ('}' :: S) := by
    rw [hs1]
    simp [List.append_assoc]
  have hs2len : (((((P ++ '{' :: '\n' :: (F ++ '\n' :: (B ++ ['\n']))) ++ el ++ '\n' :: mid) ++
      ['\n']) ++ en)).length =
      P.length + F.length + B.length + el.length + mid.length + en.length + 6 := by
    simp
    omega
  have hs3 : doc2 = (((((P ++ '{' :: '\n' :: (F ++ '\n' :: (B ++ ['\n']))) ++ el ++ '\n' :: mid) ++
      ['\n']) ++ en) ++ ['\n']) ++ '}' :: S := by
    rw [hs2]
    simp [List.append_assoc]
  have hs3len : ((((((P ++ '{' :: '\n' :: (F ++ '\n' :: (B ++ ['\n']))) ++ el ++ '\n' :: mid) ++
      ['\n']) ++ en) ++ ['\n'])).length =
      P.length + F.length + B.length + el.length + mid.length + en.length + 7 := by
    simp
    omega
  -- character facts
  have hchar_brace : doc2.getD (P.length + F.length + B.length + E.length + 4) ' ' = '}' := by
    rw [hs3, show P.length + F.length + B.length + E.length + 4 =
      ((((((P ++ '{' :: '\n' :: (F ++ '\n' :: (B ++ ['\n']))) ++ el ++ '\n' :: mid) ++
      ['\n']) ++ en) ++ ['\n'])).length from by rw [hs3len]; omega, getD_concat_at]
  have hchar_pre_brace : doc2.getD (P.length + F.length + B.length + E.length + 3) ' ' = '\n' := by
    rw [hs2, show P.length + F.length + B.length + E.length + 3 =
      (((((P ++ '{' :: '\n' :: (F ++ '\n' :: (B ++ ['\n']))) ++ el ++ '\n' :: mid) ++
      ['\n']) ++ en)).length from by rw [hs2len]; omega, getD_concat_at]
  have hchar_pre_endif : doc2.getD (P.length + F.length + B.length + el.length + mid.length + 5)
      ' ' = '\n' := by
    rw [hs0, show P.length + F.length + B.length + el.length + mid.length + 5 =
      ((P ++ '{' :: '\n' :: (F ++ '\n' :: (B ++ ['\n']))) ++ el ++ '\n' :: mid).length from by
        rw [hs0len], getD_concat_at]
  -- step 1: StartOfLine from range().end
  have hls_rend : lineStartPos doc2 (P.length + F.length + B.length + E.length + 5) =
      P.length + F.length + B.length + E.length + 4 := by
    refine lineStartPos_eq_of doc2 _ _ (by omega) (Or.inr ?_) ?_
    · rw [show P.length + F.length + B.length + E.length + 4 - 1 =
        P.length + F.length + B.length + E.length + 3 from by omega]
      exact hchar_pre_endif ▸ hchar_pre_brace
    · intro i h1 h2
      rw [show i = P.length + F.length + B.length + E.length + 4 from by omega]
      rw [hchar_brace]
      decide
  -- step 2: Up from the line start (lands on the #endif line start)
  have hls_brace : lineStartPos doc2 (P.length + F.length + B.length + E.length + 4) =
      P.length + F.length + B.length + E.length + 4 := by
    refine lineStartPos_eq_of doc2 _ _ le_rfl (Or.inr ?_) ?_
    · rw [show P.length + F.length + B.length + E.length + 4 - 1 =
        P.length + F.length + B.length + E.length + 3 from by omega]
      exact hchar_pre_brace
    · intro i h1 h2
      omega
  have hls_endif : lineStartPos doc2 (P.length + F.length + B.length + E.length + 3) =
      P.length + F.length + B.length + el.length + mid.length + 6 := by
    refine lineStartPos_eq_of doc2 _ _ (by omega) (Or.inr ?_) ?_
    · rw [show P.length + F.length + B.length + el.length + mid.length + 6 - 1 =
        P.length + F.length + B.length + el.length + mid.length + 5 from by omega]
      exact hchar_pre_endif
    · intro i h1 h2
      have hk : i = ((((P ++ '{' :: '\n' :: (F ++ '\n' :: (B ++ ['\n']))) ++ el ++ '\n' :: mid) ++
          ['\n'])).length + (i - (P.length + F.length + B.length + el.length + mid.length + 6)) := by
        rw [hs1len]
        omega
      rw [hs1, hk, List.getD_append_right _ _ _ _ (by omega),
        show ((((P ++ '{' :: '\n' :: (F ++ '\n' :: (B ++ ['\n']))) ++ el ++ '\n' :: mid) ++
          ['\n'])).length + (i - (P.length + F.length + B.length + el.length + mid.length + 6)) -
          ((((P ++ '{' :: '\n' :: (F ++ '\n' :: (B ++ ['\n']))) ++ el ++ '\n' :: mid) ++
          ['\n'])).length = i - (P.length + F.length + B.length + el.length + mid.length + 6)
          from by omega]
      rw [List.getD_append _ _ _ _ (by omega)]
      exact getD_ne_of_forall en '\n' (fun ch hch => (hEnprop ch hch).1) _ (by omega)
  have hup : upPos doc2 (P.length + F.length + B.length + E.length + 4) =
      P.length + F.length + B.length + el.length + mid.length + 6 := by
    simp only [upPos]
    rw [hls_brace]
    rw [if_neg (by omega)]
    rw [show P.length + F.length + B.length + E.length + 4 - 1 =
      P.length + F.length + B.length + E.length + 3 from by omega]
    rw [hls_endif]
    omega
  -- the selection is the #endif line plus its newline
  have htake_brace : doc2.take (P.length + F.length + B.length + E.length + 4) =
      ((((P ++ '{' :: '\n' :: (F ++ '\n' :: (B ++ ['\n']))) ++ el ++ '\n' :: mid) ++
        ['\n']) ++ en) ++ ['\n'] := by
    rw [hs3]
    exact List.take_left' (by rw [hs3len]; omega)
  have hsel_eq : (doc2.take (P.length + F.length + B.length + E.length + 4)).drop
      (P.length + F.length + B.length + el.length + mid.length + 6) = en ++ ['\n'] := by
    rw [htake_brace]
    rw [show ((((P ++ '{' :: '\n' :: (F ++ '\n' :: (B ++ ['\n']))) ++ el ++ '\n' :: mid) ++
        ['\n']) ++ en) ++ ['\n'] =
      (((P ++ '{' :: '\n' :: (F ++ '\n' :: (B ++ ['\n']))) ++ el ++ '\n' :: mid) ++
        ['\n']) ++ (en ++ ['\n']) from by simp [List.append_assoc]]
    exact List.drop_left' (by rw [hs1len])
  have hpref : (tsEndifString settings.tag).isPrefixOf (en ++ ['\n']) = true := by
    rw [List.isPrefixOf_iff_prefix, hendef]
    exact List.prefix_append _ _
  -- the backward find lands on the generated #else line
  have hfind : findBackwardStr doc2 (tsElseString settings.tag)
      (P.length + F.length + B.length + el.length + mid.length + 6) =
      ((P.length + F.length + B.length + 4 : Nat) : Int) := by
    refine findBackwardStr_eq doc2 _ _ (P.length + F.length + B.length + 4) ?_ (by omega) ?_
    · unfold listMatchAt
      rw [hsel, show P.length + F.length + B.length + 4 =
        (P ++ '{' :: '\n' :: (F ++ '\n' :: (B ++ ['\n']))).length from hs4len.symm,
        List.drop_left, List.isPrefixOf_iff_prefix, heldef]
      exact ⟨'\n' :: (mid ++ '\n' :: (tsEndifString settings.tag ++ '\n' :: '}' :: S)), by
        simp [List.append_assoc]⟩
    · intro u h1u h2u
      exact h_noelse u (by omega) (by omega)
  -- unfold the toggle and resolve the branch
  simp only [toggleSectionNoSelection]
  rw [hls_rend, hup, hsel_eq, if_pos hpref]
  rw [hfind, if_pos (by omega : ((P.length + F.length + B.length + 4 : Nat) : Int) >
    (rstart2 : Int))]
  rw [Int.toNat_natCast]
  -- the scaffolding-free document after the removal of [#else, brace)
  have htk : doc2.take (P.length + F.length + B.length + 4) =
      P ++ '{' :: '\n' :: (F ++ '\n' :: (B ++ ['\n'])) := by
    rw [hs4]
    exact List.take_left' hs4len
  have hdk : doc2.drop (P.length + F.length + B.length + E.length + 4) = '}' :: S := by
    rw [hs3]
    exact List.drop_left' (by rw [hs3len]; omega)
  rw [htk, hdk]
  rw [show P ++ '{' :: '\n' :: (F ++ '\n' :: (B ++ ['\n'])) ++ '}' :: S =
    P ++ '{' :: '\n' :: (F ++ '\n' :: (B ++ '\n' :: ('}' :: S))) from by
      simp [List.append_assoc]]
  -- the backward block move lands on the opening brace
  have hmv : moveBlock (P ++ '{' :: '\n' :: (F ++ '\n' :: (B ++ '\n' :: ('}' :: S))))
      ((P.length + F.length + B.length + 4 : Nat) : Int) Dir.prev = (P.length : Int) := by
    have hsh : P ++ '{' :: '\n' :: (F ++ '\n' :: (B ++ '\n' :: ('}' :: S))) =
        P ++ '{' :: (('\n' :: (F ++ '\n' :: B)) ++ '\n' :: ('}' :: S)) := by
      simp [List.append_assoc]
    have hM : poolBalanced ('\n' :: (F ++ '\n' :: B)) := by
      refine poolBalanced_cons_neutral _ _ (by decide) ?_
      refine poolBalanced_append _ _
        (poolBalanced_of_no_delims F fun ch hch => (hFprop ch hch).2) ?_
      exact poolBalanced_cons_neutral _ _ (by decide) hB
    have harg : P.length + F.length + B.length + 4 =
        P.length + ('\n' :: (F ++ '\n' :: B)).length + 2 := by
      simp
      omega
    rw [hsh, harg,
      moveBlock_prev_hits_open P ('\n' :: (F ++ '\n' :: B)) '\n' ('}' :: S) hP
        (by decide) hM]
  rw [hmv, Int.toNat_natCast]
  -- line navigation in the cleaned document
  have hlenD : (P ++ '{' :: '\n' :: (F ++ '\n' :: (B ++ '\n' :: ('}' :: S)))).length =
      P.length + F.length + B.length + S.length + 5 := by
    simp
    omega
  have hch_brace : (P ++ '{' :: '\n' :: (F ++ '\n' :: (B ++ '\n' :: ('}' :: S)))).getD
      P.length ' ' = '{' := getD_concat_at P '{' _
  have hch_nl1 : (P ++ '{' :: '\n' :: (F ++ '\n' :: (B ++ '\n' :: ('}' :: S)))).getD
      (P.length + 1) ' ' = '\n' := by
    rw [show P ++ '{' :: '\n' :: (F ++ '\n' :: (B ++ '\n' :: ('}' :: S))) =
      (P ++ ['{']) ++ '\n' :: (F ++ '\n' :: (B ++ '\n' :: ('}' :: S))) from by
        simp [List.append_assoc],
      show P.length + 1 = (P ++ ['{']).length from by simp, getD_concat_at]
  have hch_nl2 : (P ++ '{' :: '\n' :: (F ++ '\n' :: (B ++ '\n' :: ('}' :: S)))).getD
      (P.length + 2 + F.length) ' ' = '\n' := by
    rw [show P ++ '{' :: '\n' :: (F ++ '\n' :: (B ++ '\n' :: ('}' :: S))) =
      (P ++ '{' :: '\n' :: F) ++ '\n' :: (B ++ '\n' :: ('}' :: S)) from by
        simp [List.append_assoc],
      show P.length + 2 + F.length = (P ++ '{' :: '\n' :: F).length from by simp; omega,
      getD_concat_at]
  have hch_inF : ∀ i, P.length + 2 ≤ i → i < P.length + 2 + F.length →
      (P ++ '{' :: '\n' :: (F ++ '\n' :: (B ++ '\n' :: ('}' :: S)))).getD i ' ' ≠ '\n' := by
    intro i hi1 hi2
    rw [show P ++ '{' :: '\n' :: (F ++ '\n' :: (B ++ '\n' :: ('}' :: S))) =
      (P ++ ['{', '\n']) ++ (F ++ '\n' :: (B ++ '\n' :: ('}' :: S))) from by
        simp [List.append_assoc]]
    rw [List.getD_append_right _ _ _ _ (by simp; omega)]
    rw [List.getD_append _ _ _ _ (by simp; omega)]
    exact getD_ne_of_forall F '\n' (fun ch hch => (hFprop ch hch).1) _ (by simp; omega)
  have hle1 : lineEndPos (P ++ '{' :: '\n' :: (F ++ '\n' :: (B ++ '\n' :: ('}' :: S))))
      P.length = P.length + 1 := by
    refine lineEndPos_eq_of _ _ _ (by omega) (by omega) (Or.inr hch_nl1) ?_
    intro i h1 h2
    rw [show i = P.length from by omega, hch_brace]
    decide
  have hls2 : lineStartPos (P ++ '{' :: '\n' :: (F ++ '\n' :: (B ++ '\n' :: ('}' :: S))))
      (P.length + 2) = P.length + 2 := by
    refine lineStartPos_eq_of _ _ _ le_rfl (Or.inr ?_) (by omega)
    rw [show P.length + 2 - 1 = P.length + 1 from by omega]
    exact hch_nl1
  have hle2 : lineEndPos (P ++ '{' :: '\n' :: (F ++ '\n' :: (B ++ '\n' :: ('}' :: S))))
      (P.length + 2) = P.length + 2 + F.length := by
    refine lineEndPos_eq_of _ _ _ (by omega) (by omega) (Or.inr hch_nl2) hch_inF
  have hp3def : downPos (P ++ '{' :: '\n' :: (F ++ '\n' :: (B ++ '\n' :: ('}' :: S))))
      P.length = min (P.length + 1 + 1 + (P.length -
        lineStartPos (P ++ '{' :: '\n' :: (F ++ '\n' :: (B ++ '\n' :: ('}' :: S))))
          P.length)) (P.length + 2 + F.length) := by
    simp only [downPos]
    rw [hle1, if_neg (by omega), show P.length + 1 + 1 = P.length + 2 from by omega, hle2]
  have hlsle := lineStartPos_le (P ++ '{' :: '\n' :: (F ++ '\n' :: (B ++ '\n' :: ('}' :: S))))
    P.length
  have hp4 : lineStartPos (P ++ '{' :: '\n' :: (F ++ '\n' :: (B ++ '\n' :: ('}' :: S))))
      (min (P.length + 1 + 1 + (P.length -
        lineStartPos (P ++ '{' :: '\n' :: (F ++ '\n' :: (B ++ '\n' :: ('}' :: S))))
          P.length)) (P.length + 2 + F.length)) = P.length + 2 := by
    refine lineStartPos_eq_of _ _ _ (by omega) (Or.inr ?_) ?_
    · rw [show P.length + 2 - 1 = P.length + 1 from by omega]
      exact hch_nl1
    · intro i h1 h2
      exact hch_inF i h1 (by omega)
  have hp5 : downPos (P ++ '{' :: '\n' :: (F ++ '\n' :: (B ++ '\n' :: ('}' :: S))))
      (P.length + 2) = P.length + F.length + 3 := by
    simp only [downPos]
    rw [hle2, if_neg (by omega), hls2]
    have := le_lineEndPos (P ++ '{' :: '\n' :: (F ++ '\n' :: (B ++ '\n' :: ('}' :: S))))
      (P.length + 2 + F.length + 1)
    omega
  rw [hp3def, hp4, hp5]
  rw [show min (P.length + 2) (P.length + F.length + 3) = P.length + 2 from by omega,
    show max (P.length + 2) (P.length + F.length + 3) = P.length + F.length + 3 from by omega]
  have htkD : (P ++ '{' :: '\n' :: (F ++ '\n' :: (B ++ '\n' :: ('}' :: S)))).take
      (P.length + 2) = P ++ ['{', '\n'] := by
    rw [show P ++ '{' :: '\n' :: (F ++ '\n' :: (B ++ '\n' :: ('}' :: S))) =
      (P ++ ['{', '\n']) ++ (F ++ '\n' :: (B ++ '\n' :: ('}' :: S))) from by
        simp [List.append_assoc]]
    exact List.take_left' (by simp)
  have hdpD : (P ++ '{' :: '\n' :: (F ++ '\n' :: (B ++ '\n' :: ('}' :: S)))).drop
      (P.length + F.length + 3) = B ++ '\n' :: ('}' :: S) := by
    rw [show P ++ '{' :: '\n' :: (F ++ '\n' :: (B ++ '\n' :: ('}' :: S))) =
      (P ++ '{' :: '\n' :: (F ++ ['\n'])) ++ (B ++ '\n' :: ('}' :: S)) from by
        simp [List.append_assoc]]
    exact List.drop_left' (by simp; omega)
  rw [htkD, hdpD]
  simp [List.append_assoc]

end Knut

namespace Knut

instance (l : List Char) : Decidable (poolBalanced l) := by
  unfold poolBalanced
  infer_instance

/-- C4 (amended): toggling a section twice restores the buffer byte-identically
when the function is laid out with its opening brace ending a line and the
closing brace starting one: for every prefix, pool-balanced body and suffix,
with a tag free of newlines and counted delimiters and no stray occurrence of
the generated `#else` marker inside the inserted block, the second call removes
exactly what the first inserted.  (The unconditional claim is refuted by
`c4_counterexample`: code sharing the opening brace's line is deleted.) -/
theorem c4_toggle_twice_round_trip
    (settings : ToggleSectionSettings) (tabStr : List Char)
    (P B S name rt name2 rt2 : List Char) (rstart1 rstart2 : Nat)
    (hP : 1 ≤ P.length) (hB : poolBalanced B)
    (hE : poolBalanced (tsElseText settings tabStr
      ⟨name, rt, rstart1, P.length + B.length + 4⟩))
    (htag : ∀ ch ∈ settings.tag, ch ≠ '\n' ∧ delimDelta Dir.prev ch = 0)
    (hr2 : rstart2 ≤ P.length)
    (hnotyet : (tsEndifString settings.tag).isPrefixOf
      (((P ++ '\x7b' :: '\n' :: (B ++ '\n' :: '\x7d' :: S)).take
          (lineStartPos (P ++ '\x7b' :: '\n' :: (B ++ '\n' :: '\x7d' :: S))
            (P.length + B.length + 4))).drop
        (upPos (P ++ '\x7b' :: '\n' :: (B ++ '\n' :: '\x7d' :: S))
          (lineStartPos (P ++ '\x7b' :: '\n' :: (B ++ '\n' :: '\x7d' :: S))
            (P.length + B.length + 4)))) = false)
    (h_noelse : ∀ u,
      u < P.length + (tsIfdefString settings.tag).length + B.length +
        (tsElseText settings tabStr ⟨name, rt, rstart1, P.length + B.length + 4⟩).length +
        3 - (tsEndifString settings.tag).length →
      P.length + (tsIfdefString settings.tag).length + B.length + 4 < u →
      listMatchAt (P ++ '\x7b' :: '\n' :: (tsIfdefString settings.tag ++ '\n' ::
        (B ++ '\n' :: (tsElseText settings tabStr
          ⟨name, rt, rstart1, P.length + B.length + 4⟩ ++ '\x7d' :: S))))
        (tsElseString settings.tag) u = false) :
    toggleSectionNoSelection settings tabStr
      (toggleSectionNoSelection settings tabStr
        (P ++ '\x7b' :: '\n' :: (B ++ '\n' :: '\x7d' :: S))
        (some ⟨name, rt, rstart1, P.length + B.length + 4⟩))
      (some ⟨name2, rt2, rstart2,
        P.length + (tsIfdefString settings.tag).length + B.length +
          (tsElseText settings tabStr
            ⟨name, rt, rstart1, P.length + B.length + 4⟩).length + 5⟩) =
      P ++ '\x7b' :: '\n' :: (B ++ '\n' :: '\x7d' :: S) := by
  rw [toggle_insert_step settings tabStr P B S name rt rstart1 hP hB hE hnotyet]
  exact toggle_remove_step settings tabStr P B S
    ⟨name, rt, rstart1, P.length + B.length + 4⟩ name2 rt2 rstart2 hP hB htag hr2 h_noelse

/-- A body sharing the opening brace line is not restored: toggling
`void f() \x7b int a; ... \x7d` twice deletes the code that stood on the
brace line, so the round trip fails on this layout. -/
theorem c4_counterexample :
    ¬ (toggleSectionNoSelection ⟨"TAG".toList, [], []⟩ "\t".toList
      (toggleSectionNoSelection ⟨"TAG".toList, [], []⟩ "\t".toList
        "void f()\n\x7b int a;\n\x7d\n".toList
        (some ⟨"f".toList, "void".toList, 0, 19⟩))
      (some ⟨"f".toList, "void".toList, 0, 66⟩) =
      "void f()\n\x7b int a;\n\x7d\n".toList) := by
  have hmv1 : moveBlock ("void f()\n\x7b int a;\n#else // TAG\n\treturn;\n#endif // TAG\n\x7d\n".toList) ((54 : Nat) : Int) Dir.prev = ((9 : Nat) : Int) := by
    rw [show ("void f()\n\x7b int a;\n#else // TAG\n\treturn;\n#endif // TAG\n\x7d\n".toList) =
      "void f()\n".toList ++ '\x7b' ::
        (" int a;\n#else // TAG\n\treturn;\n#endif // TAG".toList ++
          '\n' :: "\x7d\n".toList) from by decide]
    rw [show ((54 : Nat) : Int) = (("void f()\n".toList.length +
      " int a;\n#else // TAG\n\treturn;\n#endif // TAG".toList.length + 2 : Nat) : Int)
      from by decide]
    exact (moveBlock_prev_hits_open "void f()\n".toList
      " int a;\n#else // TAG\n\treturn;\n#endif // TAG".toList '\n' "\x7d\n".toList
      (by decide) (by decide) (by decide)).trans (by decide)
  have hmv2 : moveBlock ("void f()\n\x7b\n#ifdef TAG int a;\n\x7d\n".toList) ((29 : Nat) : Int) Dir.prev = ((9 : Nat) : Int) := by
    rw [show ("void f()\n\x7b\n#ifdef TAG int a;\n\x7d\n".toList) =
      "void f()\n".toList ++ '\x7b' ::
        ("\n#ifdef TAG int a;".toList ++ '\n' :: "\x7d\n".toList) from by decide]
    rw [show ((29 : Nat) : Int) = (("void f()\n".toList.length +
      "\n#ifdef TAG int a;".toList.length + 2 : Nat) : Int) from by decide]
    exact (moveBlock_prev_hits_open "void f()\n".toList
      "\n#ifdef TAG int a;".toList '\n' "\x7d\n".toList
      (by decide) (by decide) (by decide)).trans (by decide)
  have h1 : toggleSectionNoSelection ⟨"TAG".toList, [], []⟩ "\t".toList
      "void f()\n\x7b int a;\n\x7d\n".toList
      (some ⟨"f".toList, "void".toList, 0, 19⟩) =
      "void f()\n\x7b\n#ifdef TAG int a;\n#else // TAG\n\treturn;\n#endif // TAG\n\x7d\n".toList := by
    simp only [toggleSectionNoSelection]
    rw [if_neg (by decide)]
    show ("void f()\n\x7b int a;\n#else // TAG\n\treturn;\n#endif // TAG\n\x7d\n".toList).take (min (((moveBlock ("void f()\n\x7b int a;\n#else // TAG\n\treturn;\n#endif // TAG\n\x7d\n".toList)
        ((54 : Nat) : Int) Dir.prev).toNat) + 1)
      ("void f()\n\x7b int a;\n#else // TAG\n\treturn;\n#endif // TAG\n\x7d\n".toList).length) ++ "\n".toList ++ tsIfdefString "TAG".toList ++
      ("void f()\n\x7b int a;\n#else // TAG\n\treturn;\n#endif // TAG\n\x7d\n".toList).drop (min (((moveBlock ("void f()\n\x7b int a;\n#else // TAG\n\treturn;\n#endif // TAG\n\x7d\n".toList)
        ((54 : Nat) : Int) Dir.prev).toNat) + 1)
      ("void f()\n\x7b int a;\n#else // TAG\n\treturn;\n#endif // TAG\n\x7d\n".toList).length) =
      "void f()\n\x7b\n#ifdef TAG int a;\n#else // TAG\n\treturn;\n#endif // TAG\n\x7d\n".toList
    rw [hmv1]
    decide
  have h2 : toggleSectionNoSelection ⟨"TAG".toList, [], []⟩ "\t".toList
      "void f()\n\x7b\n#ifdef TAG int a;\n#else // TAG\n\treturn;\n#endif // TAG\n\x7d\n".toList
      (some ⟨"f".toList, "void".toList, 0, 66⟩) = "void f()\n\x7b\n\x7d\n".toList := by
    simp only [toggleSectionNoSelection]
    rw [if_pos (by decide)]
    show ("void f()\n\x7b\n#ifdef TAG int a;\n\x7d\n".toList).take (min (lineStartPos ("void f()\n\x7b\n#ifdef TAG int a;\n\x7d\n".toList)
      (downPos ("void f()\n\x7b\n#ifdef TAG int a;\n\x7d\n".toList) ((moveBlock ("void f()\n\x7b\n#ifdef TAG int a;\n\x7d\n".toList) ((29 : Nat) : Int) Dir.prev).toNat))) (downPos ("void f()\n\x7b\n#ifdef TAG int a;\n\x7d\n".toList)
      (lineStartPos ("void f()\n\x7b\n#ifdef TAG int a;\n\x7d\n".toList)
      (downPos ("void f()\n\x7b\n#ifdef TAG int a;\n\x7d\n".toList) ((moveBlock ("void f()\n\x7b\n#ifdef TAG int a;\n\x7d\n".toList) ((29 : Nat) : Int) Dir.prev).toNat))))) ++
      ("void f()\n\x7b\n#ifdef TAG int a;\n\x7d\n".toList).drop (max (lineStartPos ("void f()\n\x7b\n#ifdef TAG int a;\n\x7d\n".toList)
      (downPos ("void f()\n\x7b\n#ifdef TAG int a;\n\x7d\n".toList) ((moveBlock ("void f()\n\x7b\n#ifdef TAG int a;\n\x7d\n".toList) ((29 : Nat) : Int) Dir.prev).toNat))) (downPos ("void f()\n\x7b\n#ifdef TAG int a;\n\x7d\n".toList)
      (lineStartPos ("void f()\n\x7b\n#ifdef TAG int a;\n\x7d\n".toList)
      (downPos ("void f()\n\x7b\n#ifdef TAG int a;\n\x7d\n".toList) ((moveBlock ("void f()\n\x7b\n#ifdef TAG int a;\n\x7d\n".toList) ((29 : Nat) : Int) Dir.prev).toNat))))) = "void f()\n\x7b\n\x7d\n".toList
    rw [hmv2]
    decide
  rw [h1, h2]
  decide

end Knut

namespace Knut

/-- Concrete round trip: a well-formatted `void f()` toggled twice comes back
byte-identical. -/
theorem c4_witness :
    toggleSectionNoSelection ⟨"TAG".toList, [], []⟩ "\t".toList
      (toggleSectionNoSelection ⟨"TAG".toList, [], []⟩ "\t".toList
        ("void f()\n".toList ++ '\x7b' :: '\n' ::
          ("\tint a;".toList ++ '\n' :: '\x7d' :: "\n".toList))
        (some ⟨"f".toList, "void".toList, 0,
          "void f()\n".toList.length + "\tint a;".toList.length + 4⟩))
      (some ⟨"f".toList, "void".toList, 0,
        "void f()\n".toList.length + (tsIfdefString "TAG".toList).length +
          "\tint a;".toList.length +
          (tsElseText ⟨"TAG".toList, [], []⟩ "\t".toList
            ⟨"f".toList, "void".toList, 0,
              "void f()\n".toList.length + "\tint a;".toList.length + 4⟩).length + 5⟩) =
      "void f()\n".toList ++ '\x7b' :: '\n' ::
        ("\tint a;".toList ++ '\n' :: '\x7d' :: "\n".toList) :=
  c4_toggle_twice_round_trip ⟨"TAG".toList, [], []⟩ "\t".toList
    "void f()\n".toList "\tint a;".toList "\n".toList
    "f".toList "void".toList "f".toList "void".toList 0 0
    (by decide) (by decide) (by decide) (by decide) (by decide) (by decide) (by decide)

end Knut
